import Mathlib

/-! A lock-guarded dictionary (`dictionary.go`)

Shallow embedding of the Go package `dictionary`: a `Dictionary` owns a built-in
Go map `items : map[Key]Value` and a `sync.RWMutex`.  Every method is translated
statement by statement into explicit state passing.

Modelling decisions.

* `Key` and `Value` are Go interface values: either `nil` or a dynamic value.
  They are modelled as `Option K` and `Option V`; `none` is the nil interface,
  which is the zero value of both types.  Keys are compared with a decidable,
  reflexive equality, i.e. the model covers the keys on which Go's `==` is an
  equivalence (dynamic types that are not comparable, and floating-point NaN,
  are outside the model).
* The built-in map is a list of entries with pairwise distinct keys (`GoMap`);
  a map-typed field may in addition be nil (`Option (GoMap _ _)`).  The order in
  which `range` visits the entries is the order of the list; Go leaves it
  unspecified, so nothing below depends on it.
* The mutex is not a value that the sequential code inspects.  Each call on it,
  each access to the field `items` and each runtime fault is recorded, in
  program order, in the history `trace` of the dictionary; `RWMutex` is the
  automaton that replays the lock calls of such a history.
* Concurrent callers are threads that take the statements of `Add` one step at
  a time on a shared dictionary and mutex (`Config`); a schedule names the
  thread that takes the next step, and `Lock` is a step only on a free mutex.
-/

namespace ThreadSafeDictionary

/-- Key holds the key of a dictionary item (`type Key interface{}`): nil or a dynamic value. -/
abbrev Key (K : Type) := Option K

/-- Value holds the value of a dictionary item (`type Value interface{}`): nil or a dynamic value. -/
abbrev Value (V : Type) := Option V

/-- The zero value of an interface type. -/
def nil {α : Type} : Option α := none

/-! ## The built-in map -/

/-- Entries of a non-nil Go map: a list of key/value pairs whose keys are pairwise distinct. -/
structure GoMap (K V : Type) where
  entries : List (K × V)
  nodupKeys : (entries.map Prod.fst).Nodup

namespace GoMap

variable {K V : Type} [DecidableEq K]

/-- Go `make(map[K]V)`: a fresh, empty, non-nil map. -/
def empty : GoMap K V := ⟨[], List.nodup_nil⟩

/-- Go `len(m)` on a non-nil map. -/
def len (m : GoMap K V) : Nat := m.entries.length

/-- The keys in iteration order. -/
def keys (m : GoMap K V) : List K := m.entries.map Prod.fst

/-- The entry stored under `key`, if there is one. -/
def lookup (m : GoMap K V) (key : K) : Option V :=
  (m.entries.find? (fun e => decide (e.1 = key))).map Prod.snd

/-- Go `delete(m, key)` on a non-nil map: drops the entry of `key`, if any. -/
def delete (m : GoMap K V) (key : K) : GoMap K V :=
  ⟨m.entries.filter (fun e => decide (e.1 ≠ key)),
    List.Nodup.sublist (List.Sublist.map Prod.fst (List.filter_sublist m.entries)) m.nodupKeys⟩

/-- Entries after `m[key] = value`: the value of an existing entry is replaced in
place, otherwise a new entry is added. -/
def assignEntries (es : List (K × V)) (key : K) (value : V) : List (K × V) :=
  if key ∈ es.map Prod.fst then
    es.map (fun e => if e.1 = key then (key, value) else e)
  else
    es ++ [(key, value)]

/-- Go `m[key] = value` on a non-nil map. -/
def assign (m : GoMap K V) (key : K) (value : V) : GoMap K V :=
  ⟨assignEntries m.entries key value, by
    unfold assignEntries
    split
    · have hfst : (List.map (fun e : K × V => if e.1 = key then (key, value) else e) m.entries).map
          Prod.fst = m.entries.map Prod.fst := by
        rw [List.map_map]
        apply List.map_congr_left
        intro e _
        by_cases h : e.1 = key <;> simp [h]
      rw [hfst]
      exact m.nodupKeys
    · rename_i hk
      rw [List.map_append]
      refine List.Nodup.append m.nodupKeys (List.nodup_singleton _) ?_
      intro a ha hb
      simp only [List.map_cons, List.map_nil, List.mem_singleton] at hb
      exact hk (hb ▸ ha)⟩

end GoMap

variable {K V : Type} [DecidableEq K]

/-- Go `v, ok := m[key]` on a possibly nil map: a missing key (and every key of a
nil map) yields the zero value and `ok = false`. -/
def mapaccess2 (m : Option (GoMap (Key K) (Value V))) (key : Key K) : Value V × Bool :=
  match m with
  | none => (nil, false)
  | some g =>
    match g.lookup key with
    | some v => (v, true)
    | none => (nil, false)

/-- Go `m[key]` on a possibly nil map. -/
def mapaccess1 (m : Option (GoMap (Key K) (Value V))) (key : Key K) : Value V :=
  (mapaccess2 m key).1

/-- Go `len(m)` on a possibly nil map; a nil map has length 0. -/
def maplen (m : Option (GoMap (Key K) (Value V))) : Nat :=
  match m with
  | none => 0
  | some g => g.len

/-- The keys that `for i := range m` binds to `i`, in iteration order; a nil map
yields no iteration. -/
def maprange (m : Option (GoMap (Key K) (Value V))) : List (Key K) :=
  match m with
  | none => []
  | some g => g.keys

/-! ## The lock and the history of a dictionary -/

/-- What a method does to the shared parts of a dictionary, in program order. -/
inductive Event where
  /-- A call of `d.lock.Lock()`. -/
  | lock
  /-- A call of `d.lock.Unlock()`. -/
  | unlock
  /-- A call of `d.lock.RLock()`. -/
  | rlock
  /-- A call of `d.lock.RUnlock()`. -/
  | runlock
  /-- A read of `d.items` (the field, or the map it holds). -/
  | read
  /-- A write of `d.items` (the field, or the map it holds). -/
  | write
  /-- A runtime fault (assignment to an entry of a nil map). -/
  | fault
  deriving DecidableEq

/-- State of a `sync.RWMutex` as seen by the calling thread: whether it holds the
exclusive lock, and how many shared holds it has. -/
structure RWMutex where
  writer : Bool
  readers : Nat
  deriving DecidableEq

namespace RWMutex

/-- The zero value of `sync.RWMutex` is an unlocked mutex. -/
def free : RWMutex := ⟨false, 0⟩

/-- The mutex after one event of the calling thread. -/
def after (m : RWMutex) : Event → RWMutex
  | Event.lock => { m with writer := true }
  | Event.unlock => { m with writer := false }
  | Event.rlock => { m with readers := m.readers + 1 }
  | Event.runlock => { m with readers := m.readers - 1 }
  | _ => m

/-- The calling thread holds the exclusive lock. -/
def heldExclusive (m : RWMutex) : Bool := m.writer

/-- The calling thread holds the shared lock. -/
def heldShared (m : RWMutex) : Bool := decide (0 < m.readers)

/-- The calling thread holds the lock in some mode. -/
def held (m : RWMutex) : Bool := m.heldExclusive || m.heldShared

end RWMutex

/-- Every access to the mapping in the history `es`, replayed from the mutex
state `m`, happens while the mutex satisfies `p`. -/
def accessesUnder (p : RWMutex → Bool) (m : RWMutex) : List Event → Bool
  | [] => true
  | Event.read :: es => p m && accessesUnder p m es
  | Event.write :: es => p m && accessesUnder p m es
  | e :: es => accessesUnder p (m.after e) es

/-! ## The dictionary -/

/-- Dictionary is an object with key of type Key and value of type Value.
`items` is the map field, nil in the zero value; `trace` is the history of the
calls made on the field `lock` and of the accesses to `items`. -/
structure Dictionary (K V : Type) where
  items : Option (GoMap (Key K) (Value V))
  trace : List Event

namespace Dictionary

/-- The zero value `Dictionary{}`: nil map, unlocked mutex, nothing done yet. -/
def zero : Dictionary K V := ⟨none, []⟩

/-- Records one event. -/
def emit (d : Dictionary K V) (e : Event) : Dictionary K V :=
  { d with trace := d.trace ++ [e] }

/-- The statement `d.items = m`. -/
def storeItems (d : Dictionary K V) (m : Option (GoMap (Key K) (Value V))) : Dictionary K V :=
  { items := m, trace := d.trace ++ [Event.write] }

/-- The statement `d.items[key] = value`; assignment to an entry of a nil map is a
runtime fault. -/
def assignItem (d : Dictionary K V) (key : Key K) (value : Value V) : Dictionary K V :=
  match d.items with
  | none => d.emit Event.fault
  | some g => { items := some (g.assign key value), trace := d.trace ++ [Event.write] }

/-- The statement `delete(d.items, key)`; on a nil map it does nothing. -/
def deleteItem (d : Dictionary K V) (key : Key K) : Dictionary K V :=
  match d.items with
  | none => d.emit Event.write
  | some g => { items := some (g.delete key), trace := d.trace ++ [Event.write] }

/-- Add adds a new item to the dictionary.
If the dictionary's map is nil it will initialize it. -/
def Add (d : Dictionary K V) (key : Key K) (value : Value V) : Dictionary K V :=
  let d1 := d.emit Event.lock                       -- d.lock.Lock(); defer d.lock.Unlock()
  let d2 := d1.emit Event.read                      -- d.items == nil
  let d3 := if d2.items.isNone then d2.storeItems (some GoMap.empty) else d2
  let d4 := d3.assignItem key value                 -- d.items[key] = value
  d4.emit Event.unlock                              -- deferred

/-- Remove removes a value from the dictionary by key. -/
def Remove (d : Dictionary K V) (key : Key K) : Bool × Dictionary K V :=
  let d1 := d.emit Event.lock                       -- d.lock.Lock(); defer d.lock.Unlock()
  let d2 := d1.emit Event.read                      -- _, ok := d.items[key]
  let ok := (mapaccess2 d2.items key).2
  let d3 := if ok then d2.deleteItem key else d2    -- if ok { delete(d.items, key) }
  (ok, d3.emit Event.unlock)                        -- return ok; deferred unlock

/-- Get gets the value associate with the key. -/
def Get (d : Dictionary K V) (key : Key K) : Value V × Dictionary K V :=
  let d1 := d.emit Event.rlock                      -- d.lock.RLock(); defer d.lock.RUnlock()
  let d2 := d1.emit Event.read                      -- d.items[key]
  (mapaccess1 d2.items key, d2.emit Event.runlock)

/-- Exists checks if a key exists in the dictionary. -/
def Exists (d : Dictionary K V) (key : Key K) : Bool × Dictionary K V :=
  let d1 := d.emit Event.rlock                      -- d.lock.RLock(); defer d.lock.RUnlock()
  let d2 := d1.emit Event.read                      -- _, ok := d.items[key]
  let ok := (mapaccess2 d2.items key).2
  (ok, d2.emit Event.runlock)

/-- Clear removes all items from the dictionary. -/
def Clear (d : Dictionary K V) : Dictionary K V :=
  let d1 := d.emit Event.lock                       -- d.lock.Lock(); defer d.lock.Unlock()
  let d2 := d1.storeItems (some GoMap.empty)        -- d.items = make(map[Key]Value)
  d2.emit Event.unlock

/-- Length returns the number of items in the dictionary. -/
def Length (d : Dictionary K V) : Nat × Dictionary K V :=
  let d1 := d.emit Event.rlock                      -- d.lock.RLock(); defer d.lock.RUnlock()
  let d2 := d1.emit Event.read                      -- len(d.items)
  (maplen d2.items, d2.emit Event.runlock)

/-- Keys returns a slice of all dictionary keys.  The read lock is released by a
plain call right after it is taken (the source has no `defer` here). -/
def Keys (d : Dictionary K V) : List (Key K) × Dictionary K V :=
  let d1 := d.emit Event.rlock                      -- d.lock.RLock()
  let d2 := d1.emit Event.runlock                   -- d.lock.RUnlock()
  let d3 := d2.emit Event.read                      -- range d.items
  let keys := (maprange d3.items).foldl (fun keys i => keys ++ [i]) []
  (keys, d3)

/-- Values returns a slice of all dictionary values. -/
def Values (d : Dictionary K V) : List (Value V) × Dictionary K V :=
  let d1 := d.emit Event.rlock                      -- d.lock.RLock(); defer d.lock.RUnlock()
  let d2 := d1.emit Event.read                      -- range d.items
  let r := (maprange d2.items).foldl
    (fun (acc : List (Value V) × Dictionary K V) i =>
      (acc.1 ++ [mapaccess1 acc.2.items i], acc.2.emit Event.read))   -- append(values, d.items[i])
    ([], d2)
  (r.1, r.2.emit Event.runlock)

/-- The events that a method run from `d` to `d2` has added to the history. -/
def newEvents (d d2 : Dictionary K V) : List Event :=
  d2.trace.drop d.trace.length

end Dictionary

/-! ## Sequences of mutations -/

set_option linter.unusedSectionVars false

/-- One mutation of a sequence: a call of `Add` or a call of `Remove`. -/
inductive Op (K V : Type) where
  | add (key : Key K) (value : Value V)
  | remove (key : Key K)

/-- The key an operation works on. -/
def Op.key : Op K V → Key K
  | Op.add key _ => key
  | Op.remove key => key

/-- Whether the operation is a call of `Add`. -/
def Op.isAdd : Op K V → Bool
  | Op.add _ _ => true
  | Op.remove _ => false

/-- One call on the dictionary. -/
def Dictionary.step (d : Dictionary K V) : Op K V → Dictionary K V
  | Op.add key value => d.Add key value
  | Op.remove key => (d.Remove key).2

/-- The calls of `ops` made one after the other, first to last. -/
def Dictionary.run (d : Dictionary K V) (ops : List (Op K V)) : Dictionary K V :=
  ops.foldl Dictionary.step d

/-- Specification side: the last operation of `ops` that works on `k` is an `Add`
(false when no operation works on `k`). -/
def lastIsAdd (ops : List (Op K V)) (k : Key K) : Bool :=
  match (ops.filter (fun o => decide (o.key = k))).getLast? with
  | some o => o.isAdd
  | none => false

/-- Specification side: the number of distinct keys whose last operation in `ops`
is an `Add`. -/
def liveKeyCount (ops : List (Op K V)) : Nat :=
  (((ops.map Op.key).dedup).filter (lastIsAdd ops)).length

/-! ## Judging a history -/

/-- The mutex after the events of `es`, in order. -/
def RWMutex.replay (m : RWMutex) (es : List Event) : RWMutex :=
  es.foldl RWMutex.after m

/-- The history `es`, replayed from the mutex state `m` of its only thread, runs to
its end: no fault is raised, `Lock` and `RLock` are called on a mutex the thread
does not hold already (a second acquisition would wait for ever), and `Unlock`
and `RUnlock` are called on a mutex held in that mode (releasing an unlocked
mutex is a fatal error). -/
def cleanRun : RWMutex → List Event → Bool
  | _, [] => true
  | m, Event.lock :: es => decide (m = RWMutex.free) && cleanRun (m.after Event.lock) es
  | m, Event.rlock :: es => decide (m = RWMutex.free) && cleanRun (m.after Event.rlock) es
  | m, Event.unlock :: es => m.heldExclusive && cleanRun (m.after Event.unlock) es
  | m, Event.runlock :: es => m.heldShared && cleanRun (m.after Event.runlock) es
  | _, Event.fault :: _ => false
  | m, Event.read :: es => cleanRun m es
  | m, Event.write :: es => cleanRun m es

/-- How many times the history acquires the lock, in either mode. -/
def acquisitions (es : List Event) : Nat :=
  es.count Event.lock + es.count Event.rlock

/-- How many times the history releases the lock, in either mode. -/
def releases (es : List Event) : Nat :=
  es.count Event.unlock + es.count Event.runlock

/-- The history acquires the lock exactly once and releases it exactly once, never
acquires it while it is held, and leaves it free at its end. -/
def lockedOnce (es : List Event) : Prop :=
  acquisitions es = 1 ∧ releases es = 1 ∧ cleanRun RWMutex.free es = true ∧
    RWMutex.free.replay es = RWMutex.free

/-- The values of the current entries of a possibly nil map, in iteration order. -/
def entryValues (m : Option (GoMap (Key K) (Value V))) : List (Value V) :=
  match m with
  | none => []
  | some g => g.entries.map Prod.snd

/-! ## Sequences of arbitrary calls -/

/-- A call of one of the eight methods, with its arguments. -/
inductive Call (K V : Type) where
  | Add (key : Key K) (value : Value V)
  | Remove (key : Key K)
  | Get (key : Key K)
  | Exists (key : Key K)
  | Clear
  | Length
  | Keys
  | Values

/-- What a call returns to its caller. -/
inductive Result (K V : Type) where
  | none
  | bool (b : Bool)
  | value (v : Value V)
  | int (n : Nat)
  | keys (ks : List (Key K))
  | values (vs : List (Value V))

/-- One call: its result and the dictionary after it. -/
def Dictionary.call (d : Dictionary K V) : Call K V → Result K V × Dictionary K V
  | Call.Add key value => (Result.none, d.Add key value)
  | Call.Remove key => (Result.bool (d.Remove key).1, (d.Remove key).2)
  | Call.Get key => (Result.value (d.Get key).1, (d.Get key).2)
  | Call.Exists key => (Result.bool (d.Exists key).1, (d.Exists key).2)
  | Call.Clear => (Result.none, d.Clear)
  | Call.Length => (Result.int (d.Length).1, (d.Length).2)
  | Call.Keys => (Result.keys (d.Keys).1, (d.Keys).2)
  | Call.Values => (Result.values (d.Values).1, (d.Values).2)

/-- The results of the calls of `cs`, made one after the other on `d`. -/
def Dictionary.results (d : Dictionary K V) : List (Call K V) → List (Result K V)
  | [] => []
  | c :: cs => (d.call c).1 :: (d.call c).2.results cs

/-! ## The concrete scenario of the specification -/

/-- Start empty; `Add("a", 1)`; `Add("b", 2)`. -/
def scenarioAdded : Dictionary String Int :=
  (Dictionary.zero.Add (some "a") (some 1)).Add (some "b") (some 2)

/-- The dictionary after the call of `Length()` that follows the two `Add`s. -/
def scenarioMeasured : Dictionary String Int := (scenarioAdded.Length).2

/-- The dictionary after `Remove("a")`. -/
def scenarioRemoved : Dictionary String Int := (scenarioMeasured.Remove (some "a")).2

/-- The dictionary after `Exists("a")` and `Get("a")`. -/
def scenarioQueried : Dictionary String Int :=
  ((scenarioRemoved.Exists (some "a")).2.Get (some "a")).2

/-- The dictionary after `Keys()` and `Clear()`. -/
def scenarioCleared : Dictionary String Int := (scenarioQueried.Keys).2.Clear

/-! ## Threads that call `Add` concurrently

Each thread makes a list of calls of `Add`.  A call is split into the steps of
the body of `Add`, one per statement, and a schedule picks the thread that takes
the next step.  `Lock` can only be taken by a thread when the mutex is free, so a
schedule that picks a thread waiting for the lock is not an execution. -/

/-- Where a thread stands inside its current call of `Add`. -/
inductive Pc where
  /-- Before `d.lock.Lock()`. -/
  | idle
  /-- Holding the lock, before the test `d.items == nil`. -/
  | locked
  /-- The test `d.items == nil` was true; before `d.items = make(map[Key]Value)`. -/
  | sawNil
  /-- Before `d.items[key] = value`. -/
  | ready
  /-- Before the deferred `d.lock.Unlock()`. -/
  | assigned
  deriving DecidableEq

/-- Number of steps already taken in the current call, at most. -/
def Pc.index : Pc → Nat
  | Pc.idle => 0
  | Pc.locked => 1
  | Pc.sawNil => 2
  | Pc.ready => 3
  | Pc.assigned => 4

/-- A thread: its place in the current call of `Add`, and the arguments of the
calls it still has to finish, the current one first. -/
structure Thread (K V : Type) where
  pc : Pc
  todo : List (Key K × Value V)

/-- The keys a thread has still to assign. -/
def Thread.pending (t : Thread K V) : List (Key K) :=
  match t.pc with
  | Pc.assigned => t.todo.tail.map Prod.fst
  | _ => t.todo.map Prod.fst

/-- The keys the threads have still to assign. -/
def pendingKeys : List (Thread K V) → List (Key K)
  | [] => []
  | t :: ts => t.pending ++ pendingKeys ts

/-- Upper bound on the number of steps a thread has still to take. -/
def Thread.fuel (t : Thread K V) : Nat :=
  5 * t.todo.length - t.pc.index

/-- Upper bound on the number of steps the threads have still to take. -/
def fuelSum : List (Thread K V) → Nat
  | [] => 0
  | t :: ts => t.fuel + fuelSum ts

/-- The next step of a thread on the shared dictionary `d` and its mutex `m`:
one statement of `Add`.  There is none when the thread has finished, or when it
calls `Lock` on a mutex that is not free. -/
def Thread.step (t : Thread K V) (d : Dictionary K V) (m : RWMutex) :
    Option (Thread K V × Dictionary K V × RWMutex) :=
  match t.todo with
  | [] => none
  | (key, value) :: rest =>
    match t.pc with
    | Pc.idle =>                                    -- d.lock.Lock(); defer d.lock.Unlock()
      if m = RWMutex.free then
        some (⟨Pc.locked, t.todo⟩, d.emit Event.lock, m.after Event.lock)
      else none
    | Pc.locked =>                                  -- if d.items == nil
      let d2 := d.emit Event.read
      some (⟨if d2.items.isNone then Pc.sawNil else Pc.ready, t.todo⟩, d2, m)
    | Pc.sawNil =>                                  -- d.items = make(map[Key]Value)
      some (⟨Pc.ready, t.todo⟩, d.storeItems (some GoMap.empty), m)
    | Pc.ready =>                                   -- d.items[key] = value
      some (⟨Pc.assigned, t.todo⟩, d.assignItem key value, m)
    | Pc.assigned =>                                -- deferred d.lock.Unlock()
      some (⟨Pc.idle, rest⟩, d.emit Event.unlock, m.after Event.unlock)

/-- The dictionary shared by the threads, the state of its mutex, and the threads. -/
structure Config (K V : Type) where
  d : Dictionary K V
  lock : RWMutex
  threads : List (Thread K V)

namespace Config

/-- Thread number `i` takes its next step. -/
def step (c : Config K V) (i : Nat) : Option (Config K V) :=
  match c.threads[i]? with
  | none => none
  | some t =>
    match t.step c.d c.lock with
    | none => none
    | some (t2, d2, m2) => some ⟨d2, m2, c.threads.set i t2⟩

/-- The steps of a schedule, one after the other. -/
def exec (c : Config K V) : List Nat → Option (Config K V)
  | [] => some c
  | i :: sched =>
    match c.step i with
    | none => none
    | some c2 => c2.exec sched

/-- The threads before their first step: thread number `i` is to call `Add` with
each pair of `work[i]`, in order; the mutex is free. -/
def start (d : Dictionary K V) (work : List (List (Key K × Value V))) : Config K V :=
  ⟨d, RWMutex.free, work.map (fun w => ⟨Pc.idle, w⟩)⟩

/-- All threads have completed all their calls. -/
def finished (c : Config K V) : Bool :=
  c.threads.all (fun t => t.todo.isEmpty)

/-- What holds of every configuration the threads can reach, `all` being the keys
of all the calls: the mutex is held by at most one thread, which is the only one
inside a call; the tests made under the lock still hold; and every key is either
still to be assigned or in the mapping. -/
structure Inv (all : List (Key K)) (c : Config K V) : Prop where
  readers : c.lock.readers = 0
  owner : ∃ o : Option Nat, c.lock.writer = o.isSome ∧
    (∀ i : Nat, o = some i → i < c.threads.length) ∧
    ∀ (i : Nat) (t : Thread K V), c.threads[i]? = some t → (t.pc ≠ Pc.idle ↔ o = some i)
  sawNil : ∀ (i : Nat) (t : Thread K V), c.threads[i]? = some t → t.pc = Pc.sawNil →
    c.d.items = none
  ready : ∀ (i : Nat) (t : Thread K V), c.threads[i]? = some t → t.pc = Pc.ready →
    c.d.items ≠ none
  busy : ∀ (i : Nat) (t : Thread K V), c.threads[i]? = some t → t.pc ≠ Pc.idle → t.todo ≠ []
  keys : List.Perm (pendingKeys c.threads ++ maprange c.d.items) all

end Config

/-- Two threads, each with two calls of `Add`, on four distinct keys. -/
def exampleWork : List (List (Key Nat × Value Nat)) :=
  [[(some 1, some 10), (some 2, some 20)], [(some 3, some 30), (some 4, some 40)]]

/-- A schedule for `exampleWork`: thread 0 makes its first call (five steps, the
map being nil), thread 1 makes both of its calls, thread 0 makes its second call. -/
def exampleSchedule : List Nat :=
  [0, 0, 0, 0, 0, 1, 1, 1, 1, 1, 1, 1, 1, 0, 0, 0, 0]

/-! ## Facts about the built-in map -/

namespace GoMap

omit [DecidableEq K] in
theorem ext_entries {m1 m2 : GoMap K V} (h : m1.entries = m2.entries) : m1 = m2 := by
  cases m1; cases m2; cases h; rfl

theorem find_eq_none_of_not_mem (es : List (K × V)) (k : K) (h : k ∉ es.map Prod.fst) :
    es.find? (fun e => decide (e.1 = k)) = none := by
  rw [List.find?_eq_none]
  intro e he hk
  simp only [decide_eq_true_eq] at hk
  exact h (List.mem_map.2 ⟨e, he, hk⟩)

theorem find_isSome_of_mem (es : List (K × V)) (k : K) (h : k ∈ es.map Prod.fst) :
    (es.find? (fun e => decide (e.1 = k))).isSome = true := by
  rw [List.find?_isSome]
  obtain ⟨e, he, hk⟩ := List.mem_map.1 h
  exact ⟨e, he, by simp [hk]⟩

theorem lookup_isSome_iff (m : GoMap K V) (k : K) :
    (m.lookup k).isSome = true ↔ k ∈ m.keys := by
  unfold lookup keys
  constructor
  · intro h
    by_contra hk
    rw [find_eq_none_of_not_mem _ _ hk] at h
    simp at h
  · intro h
    have h2 := find_isSome_of_mem m.entries k h
    revert h2
    cases List.find? (fun e => decide (e.1 = k)) m.entries <;> simp

theorem lookup_eq_none_iff (m : GoMap K V) (k : K) :
    m.lookup k = none ↔ k ∉ m.keys := by
  rw [← lookup_isSome_iff]
  cases m.lookup k <;> simp

theorem find_assignEntries_self (es : List (K × V)) (k : K) (v : V) :
    (assignEntries es k v).find? (fun e => decide (e.1 = k)) = some (k, v) := by
  unfold assignEntries
  split
  · rename_i h
    induction es with
    | nil => simp at h
    | cons e es ih =>
      by_cases hk : e.1 = k
      · simp [hk]
      · have h2 : k ∈ es.map Prod.fst := by
          simp only [List.map_cons, List.mem_cons] at h
          rcases h with h | h
          · exact absurd h.symm hk
          · exact h
        simp only [List.map_cons, hk, if_false, List.find?_cons, decide_False]
        exact ih h2
  · rename_i h
    rw [List.find?_append, find_eq_none_of_not_mem _ _ h]
    simp

theorem find_map_assign_ne (es : List (K × V)) (k k2 : K) (v : V) (hne : k2 ≠ k) :
    (es.map (fun e => if e.1 = k then (k, v) else e)).find? (fun e => decide (e.1 = k2)) =
      es.find? (fun e => decide (e.1 = k2)) := by
  induction es with
  | nil => rfl
  | cons e es ih =>
    rw [List.map_cons, List.find?_cons, List.find?_cons, ih]
    by_cases hk : e.1 = k
    · have h1 : decide ((if e.1 = k then (k, v) else e).1 = k2) = false := by
        rw [if_pos hk]
        exact decide_eq_false (fun h => hne h.symm)
      have h2 : decide (e.1 = k2) = false := decide_eq_false (fun h => hne (h.symm.trans hk))
      rw [h1, h2]
    · rw [if_neg hk]

theorem find_assignEntries_ne (es : List (K × V)) (k k2 : K) (v : V) (hne : k2 ≠ k) :
    (assignEntries es k v).find? (fun e => decide (e.1 = k2)) =
      es.find? (fun e => decide (e.1 = k2)) := by
  unfold assignEntries
  split
  · exact find_map_assign_ne es k k2 v hne
  · rw [List.find?_append]
    have hkk : ¬ k = k2 := fun h => hne h.symm
    have : List.find? (fun e : K × V => decide (e.1 = k2)) [(k, v)] = none := by
      simp [hkk]
    rw [this]
    simp

theorem lookup_assign_self (m : GoMap K V) (k : K) (v : V) :
    (m.assign k v).lookup k = some v := by
  unfold lookup assign
  simp only [find_assignEntries_self, Option.map_some']

theorem lookup_assign_ne (m : GoMap K V) (k k2 : K) (v : V) (hne : k2 ≠ k) :
    (m.assign k v).lookup k2 = m.lookup k2 := by
  unfold lookup assign
  simp only [find_assignEntries_ne _ _ _ _ hne]

theorem len_assign (m : GoMap K V) (k : K) (v : V) :
    (m.assign k v).len = if k ∈ m.keys then m.len else m.len + 1 := by
  unfold len assign keys assignEntries
  by_cases h : k ∈ m.entries.map Prod.fst <;> simp [h]

theorem lookup_delete_self (m : GoMap K V) (k : K) : (m.delete k).lookup k = none := by
  rw [lookup_eq_none_iff]
  unfold keys delete
  simp

theorem find_filter_ne (es : List (K × V)) (k k2 : K) (hne : k2 ≠ k) :
    (es.filter (fun e => decide (e.1 ≠ k))).find? (fun e => decide (e.1 = k2)) =
      es.find? (fun e => decide (e.1 = k2)) := by
  induction es with
  | nil => rfl
  | cons e es ih =>
    by_cases hk : e.1 = k
    · have h2 : decide (e.1 = k2) = false := decide_eq_false (fun h => hne (h.symm.trans hk))
      rw [List.filter_cons, if_neg (by simp [hk]), ih, List.find?_cons, h2]
    · rw [List.filter_cons, if_pos (by simp [hk]), List.find?_cons, List.find?_cons, ih]

theorem lookup_delete_ne (m : GoMap K V) (k k2 : K) (hne : k2 ≠ k) :
    (m.delete k).lookup k2 = m.lookup k2 := by
  unfold lookup delete
  simp only [find_filter_ne _ _ _ hne]

theorem delete_of_not_mem (m : GoMap K V) (k : K) (h : k ∉ m.keys) : m.delete k = m := by
  apply ext_entries
  unfold delete
  simp only
  rw [List.filter_eq_self]
  intro e he
  simp only [ne_eq, decide_not, Bool.not_eq_true', decide_eq_false_iff_not]
  intro hk
  exact h (List.mem_map.2 ⟨e, he, hk⟩)

theorem length_filter_ne_of_nodup (es : List (K × V)) (k : K) (hnd : (es.map Prod.fst).Nodup)
    (h : k ∈ es.map Prod.fst) :
    (es.filter (fun e => decide (e.1 ≠ k))).length + 1 = es.length := by
  induction es with
  | nil => simp at h
  | cons e es ih =>
    rw [List.map_cons, List.nodup_cons] at hnd
    by_cases hk : e.1 = k
    · have hnot : k ∉ es.map Prod.fst := hk ▸ hnd.1
      have hfil : es.filter (fun e => decide (e.1 ≠ k)) = es := by
        rw [List.filter_eq_self]
        intro a ha
        simp only [ne_eq, decide_not, Bool.not_eq_true', decide_eq_false_iff_not]
        intro hak
        exact hnot (List.mem_map.2 ⟨a, ha, hak⟩)
      rw [List.filter_cons, if_neg (by simp [hk]), hfil, List.length_cons]
    · have h2 : k ∈ es.map Prod.fst := by
        simp only [List.map_cons, List.mem_cons] at h
        rcases h with h | h
        · exact absurd h.symm hk
        · exact h
      rw [List.filter_cons, if_pos (by simp [hk]), List.length_cons, List.length_cons,
        ih hnd.2 h2]

theorem len_delete (m : GoMap K V) (k : K) (h : k ∈ m.keys) :
    (m.delete k).len + 1 = m.len :=
  length_filter_ne_of_nodup m.entries k m.nodupKeys h

theorem mem_keys_assign (m : GoMap K V) (k k2 : K) (v : V) :
    k2 ∈ (m.assign k v).keys ↔ k2 = k ∨ k2 ∈ m.keys := by
  rw [← lookup_isSome_iff, ← lookup_isSome_iff]
  by_cases h : k2 = k
  · subst h
    simp [lookup_assign_self]
  · simp [lookup_assign_ne _ _ _ _ h, h]

theorem mem_keys_delete (m : GoMap K V) (k k2 : K) :
    k2 ∈ (m.delete k).keys ↔ k2 ≠ k ∧ k2 ∈ m.keys := by
  rw [← lookup_isSome_iff, ← lookup_isSome_iff]
  by_cases h : k2 = k
  · subst h
    simp [lookup_delete_self]
  · simp [lookup_delete_ne _ _ _ h, h]

end GoMap

/-! ## Facts about the access primitives -/

theorem mapaccess2_none (k : Key K) :
    mapaccess2 (none : Option (GoMap (Key K) (Value V))) k = (nil, false) := rfl

theorem mapaccess2_some_snd (g : GoMap (Key K) (Value V)) (k : Key K) :
    (mapaccess2 (some g) k).2 = (g.lookup k).isSome := by
  cases h : g.lookup k <;> simp [mapaccess2, h]

theorem mapaccess2_some_fst (g : GoMap (Key K) (Value V)) (k : Key K) :
    (mapaccess2 (some g) k).1 = (g.lookup k).getD nil := by
  cases h : g.lookup k <;> simp [mapaccess2, h]

theorem mapaccess2_snd_iff (m : Option (GoMap (Key K) (Value V))) (k : Key K) :
    (mapaccess2 m k).2 = true ↔ k ∈ maprange m := by
  cases m with
  | none => simp [mapaccess2, maprange]
  | some g => rw [mapaccess2_some_snd, GoMap.lookup_isSome_iff]; rfl

theorem mapaccess2_fst_of_absent (m : Option (GoMap (Key K) (Value V))) (k : Key K)
    (h : (mapaccess2 m k).2 = false) : (mapaccess2 m k).1 = nil := by
  cases m with
  | none => rfl
  | some g =>
    rw [mapaccess2_some_snd] at h
    rw [mapaccess2_some_fst]
    cases hl : g.lookup k with
    | none => rfl
    | some v => rw [hl] at h; simp at h

theorem maplen_eq_length_maprange (m : Option (GoMap (Key K) (Value V))) :
    maplen m = (maprange m).length := by
  cases m with
  | none => rfl
  | some g => simp [maplen, maprange, GoMap.len, GoMap.keys]

theorem nodup_maprange (m : Option (GoMap (Key K) (Value V))) : (maprange m).Nodup := by
  cases m with
  | none => exact List.nodup_nil
  | some g => exact g.nodupKeys

/-! ## What each method does to the mapping -/

namespace Dictionary

theorem Add_items (d : Dictionary K V) (k : Key K) (v : Value V) :
    (d.Add k v).items = some ((d.items.getD GoMap.empty).assign k v) := by
  cases d with
  | mk items trace => cases items <;> rfl

theorem Remove_fst (d : Dictionary K V) (k : Key K) :
    (d.Remove k).1 = (mapaccess2 d.items k).2 := rfl

theorem Remove_items (d : Dictionary K V) (k : Key K) :
    (d.Remove k).2.items = d.items.map (fun g => g.delete k) := by
  cases d with
  | mk items trace =>
    cases items with
    | none => rfl
    | some g =>
      by_cases h : (mapaccess2 (some g) k).2 = true
      · simp [Remove, emit, deleteItem, h]
      · have hk : k ∉ g.keys := fun hm => h ((mapaccess2_snd_iff (some g) k).2 hm)
        simp [Remove, emit, h, GoMap.delete_of_not_mem g k hk]

theorem Get_fst (d : Dictionary K V) (k : Key K) : (d.Get k).1 = mapaccess1 d.items k := rfl

theorem Get_items (d : Dictionary K V) (k : Key K) : (d.Get k).2.items = d.items := rfl

theorem Exists_fst (d : Dictionary K V) (k : Key K) :
    (d.Exists k).1 = (mapaccess2 d.items k).2 := rfl

theorem Exists_items (d : Dictionary K V) (k : Key K) : (d.Exists k).2.items = d.items := rfl

theorem Clear_items (d : Dictionary K V) : d.Clear.items = some GoMap.empty := rfl

theorem Length_fst (d : Dictionary K V) : (d.Length).1 = maplen d.items := rfl

theorem Length_items (d : Dictionary K V) : (d.Length).2.items = d.items := rfl

theorem exists_add (d : Dictionary K V) (k k2 : Key K) (v : Value V) :
    ((d.Add k v).Exists k2).1 = if k2 = k then true else (d.Exists k2).1 := by
  rw [Exists_fst, Add_items, mapaccess2_some_snd, Exists_fst]
  by_cases h : k2 = k
  · subst h
    simp [GoMap.lookup_assign_self]
  · rw [GoMap.lookup_assign_ne _ _ _ _ h, if_neg h]
    cases d.items with
    | none => rfl
    | some g => rw [mapaccess2_some_snd]; rfl

theorem exists_remove (d : Dictionary K V) (k k2 : Key K) :
    ((d.Remove k).2.Exists k2).1 = if k2 = k then false else (d.Exists k2).1 := by
  rw [Exists_fst, Remove_items, Exists_fst]
  cases d.items with
  | none => simp [mapaccess2]
  | some g =>
    rw [Option.map_some', mapaccess2_some_snd, mapaccess2_some_snd]
    by_cases h : k2 = k
    · subst h
      simp [GoMap.lookup_delete_self]
    · rw [GoMap.lookup_delete_ne _ _ _ h, if_neg h]

theorem length_add (d : Dictionary K V) (k : Key K) (v : Value V) :
    ((d.Add k v).Length).1 = if (d.Exists k).1 = true then (d.Length).1 else (d.Length).1 + 1 := by
  rw [Length_fst, Add_items, Length_fst, Exists_fst]
  have hiff := mapaccess2_snd_iff d.items k
  cases hd : d.items with
  | none =>
    simp only [Option.getD_none, maplen]
    rw [GoMap.len_assign]
    simp [mapaccess2_none, GoMap.empty, GoMap.keys, GoMap.len]
  | some g =>
    rw [hd] at hiff
    simp [maplen, GoMap.len_assign, hiff, maprange]

theorem length_remove (d : Dictionary K V) (k : Key K) (h : (d.Exists k).1 = true) :
    ((d.Remove k).2.Length).1 + 1 = (d.Length).1 := by
  rw [Length_fst, Remove_items, Length_fst]
  rw [Exists_fst, mapaccess2_snd_iff] at h
  cases hd : d.items with
  | none => rw [hd] at h; simp [maprange] at h
  | some g =>
    rw [hd] at h
    exact GoMap.len_delete g k h

theorem remove_items_of_absent (d : Dictionary K V) (k : Key K) (h : (d.Exists k).1 = false) :
    (d.Remove k).2.items = d.items := by
  rw [Remove_items]
  cases hd : d.items with
  | none => rfl
  | some g =>
    have hk : k ∉ g.keys := by
      intro hm
      rw [Exists_fst, hd, (mapaccess2_snd_iff (some g) k).2 hm] at h
      exact Bool.noConfusion h
    rw [Option.map_some', GoMap.delete_of_not_mem g k hk]

theorem run_concat (d : Dictionary K V) (ops : List (Op K V)) (o : Op K V) :
    d.run (ops ++ [o]) = (d.run ops).step o := by
  simp [run, List.foldl_append]

theorem exists_step (d : Dictionary K V) (o : Op K V) (k : Key K) :
    ((d.step o).Exists k).1 = if o.key = k then o.isAdd else (d.Exists k).1 := by
  cases o with
  | add key value =>
    show ((d.Add key value).Exists k).1 = if key = k then true else (d.Exists k).1
    rw [exists_add]
    by_cases h : k = key
    · rw [if_pos h, if_pos h.symm]
    · rw [if_neg h, if_neg (fun h2 => h h2.symm)]
  | remove key =>
    show ((d.Remove key).2.Exists k).1 = if key = k then false else (d.Exists k).1
    rw [exists_remove]
    by_cases h : k = key
    · rw [if_pos h, if_pos h.symm]
    · rw [if_neg h, if_neg (fun h2 => h h2.symm)]

theorem exists_false_of_length_zero (d : Dictionary K V) (hd : (d.Length).1 = 0) (k : Key K) :
    (d.Exists k).1 = false := by
  rw [Length_fst, maplen_eq_length_maprange, List.length_eq_zero] at hd
  cases h : (d.Exists k).1 with
  | false => rfl
  | true =>
    rw [Exists_fst, mapaccess2_snd_iff, hd] at h
    simp at h

end Dictionary

theorem lastIsAdd_concat (ops : List (Op K V)) (o : Op K V) (k : Key K) :
    lastIsAdd (ops ++ [o]) k = if o.key = k then o.isAdd else lastIsAdd ops k := by
  unfold lastIsAdd
  rw [List.filter_append]
  by_cases h : o.key = k
  · simp [h, List.filter_cons]
  · simp [h, List.filter_cons]

theorem mem_keys_of_lastIsAdd (ops : List (Op K V)) (k : Key K) (h : lastIsAdd ops k = true) :
    k ∈ ops.map Op.key := by
  by_contra hk
  have hnil : ops.filter (fun o => decide (o.key = k)) = [] := by
    rw [List.filter_eq_nil_iff]
    intro o ho hok
    simp only [decide_eq_true_eq] at hok
    exact hk (List.mem_map.2 ⟨o, ho, hok⟩)
  unfold lastIsAdd at h
  rw [hnil] at h
  simp at h

theorem exists_run (d : Dictionary K V) (hd : (d.Length).1 = 0) (ops : List (Op K V))
    (k : Key K) : ((d.run ops).Exists k).1 = lastIsAdd ops k := by
  induction ops using List.reverseRecOn with
  | nil =>
    show (d.Exists k).1 = lastIsAdd [] k
    rw [Dictionary.exists_false_of_length_zero d hd k]
    rfl
  | append_singleton ops o ih =>
    rw [Dictionary.run_concat, Dictionary.exists_step, lastIsAdd_concat, ih]

/-! ## Facts about the histories -/

theorem accessesUnder_shared_reads (r n : Nat) :
    accessesUnder RWMutex.heldShared ⟨false, r + 1⟩
      (List.replicate n Event.read ++ [Event.runlock]) = true := by
  induction n with
  | zero => simp [accessesUnder]
  | succ n ih =>
    rw [List.replicate_succ, List.cons_append, accessesUnder, ih]
    simp [RWMutex.heldShared]

namespace Dictionary

theorem newEvents_append (d : Dictionary K V) (items : Option (GoMap (Key K) (Value V)))
    (es : List Event) : newEvents d ⟨items, d.trace ++ es⟩ = es := by
  simp [newEvents]

theorem values_loop (ks : List (Key K)) (acc : List (Value V)) (d : Dictionary K V) :
    (ks.foldl
      (fun (acc : List (Value V) × Dictionary K V) i =>
        (acc.1 ++ [mapaccess1 acc.2.items i], acc.2.emit Event.read))
      (acc, d)) =
      (acc ++ ks.map (mapaccess1 d.items),
        ⟨d.items, d.trace ++ List.replicate ks.length Event.read⟩) := by
  induction ks generalizing acc d with
  | nil => simp
  | cons k ks ih =>
    rw [List.foldl_cons, ih]
    simp [emit, List.replicate_succ]

theorem keys_loop (ks : List (Key K)) (acc : List (Key K)) :
    ks.foldl (fun keys i => keys ++ [i]) acc = acc ++ ks := by
  induction ks generalizing acc with
  | nil => simp
  | cons k ks ih => rw [List.foldl_cons, ih]; simp

theorem Keys_fst (d : Dictionary K V) : (d.Keys).1 = maprange d.items := by
  show (maprange d.items).foldl (fun keys i => keys ++ [i]) [] = maprange d.items
  rw [keys_loop]
  rfl

theorem Keys_events (d : Dictionary K V) :
    newEvents d (d.Keys).2 = [Event.rlock, Event.runlock, Event.read] := by
  show newEvents d ⟨d.items, ((d.trace ++ [Event.rlock]) ++ [Event.runlock]) ++ [Event.read]⟩ = _
  rw [List.append_assoc, List.append_assoc, newEvents_append]
  rfl

theorem Values_eq (d : Dictionary K V) :
    d.Values = ((maprange d.items).map (mapaccess1 d.items),
      ⟨d.items, d.trace ++ ([Event.rlock, Event.read] ++
        (List.replicate (maprange d.items).length Event.read ++ [Event.runlock]))⟩) := by
  unfold Values
  simp only [values_loop]
  simp [emit]

/-- The seven methods that release the lock by a deferred call access the
mapping only while holding it: `Add`, `Remove` and `Clear` in exclusive mode,
`Get`, `Exists`, `Length` and `Values` in shared mode. -/
theorem deferred_unlock_methods_access_under_lock (d : Dictionary K V) (k : Key K)
    (v : Value V) :
    accessesUnder RWMutex.heldExclusive RWMutex.free (newEvents d (d.Add k v)) = true ∧
    accessesUnder RWMutex.heldExclusive RWMutex.free (newEvents d (d.Remove k).2) = true ∧
    accessesUnder RWMutex.heldExclusive RWMutex.free (newEvents d d.Clear) = true ∧
    accessesUnder RWMutex.heldShared RWMutex.free (newEvents d (d.Get k).2) = true ∧
    accessesUnder RWMutex.heldShared RWMutex.free (newEvents d (d.Exists k).2) = true ∧
    accessesUnder RWMutex.heldShared RWMutex.free (newEvents d (d.Length).2) = true ∧
    accessesUnder RWMutex.heldShared RWMutex.free (newEvents d (d.Values).2) = true := by
  refine ⟨?_, ?_, ?_, ?_, ?_, ?_, ?_⟩
  · cases d with
    | mk items trace =>
      cases items <;>
        simp [Add, emit, storeItems, assignItem, newEvents, accessesUnder, RWMutex.after,
          RWMutex.heldExclusive, RWMutex.free]
  · cases d with
    | mk items trace =>
      cases items with
      | none =>
        simp [Remove, emit, newEvents, mapaccess2, accessesUnder, RWMutex.after,
          RWMutex.heldExclusive, RWMutex.free]
      | some g =>
        by_cases h : (mapaccess2 (some g) k).2 = true <;>
          simp [Remove, emit, deleteItem, newEvents, h, accessesUnder, RWMutex.after,
            RWMutex.heldExclusive, RWMutex.free]
  · simp [Clear, emit, storeItems, newEvents, accessesUnder, RWMutex.after,
      RWMutex.heldExclusive, RWMutex.free]
  · simp [Get, emit, newEvents, accessesUnder, RWMutex.after, RWMutex.heldShared, RWMutex.free]
  · simp [Exists, emit, newEvents, accessesUnder, RWMutex.after, RWMutex.heldShared,
      RWMutex.free]
  · simp [Length, emit, newEvents, accessesUnder, RWMutex.after, RWMutex.heldShared,
      RWMutex.free]
  · rw [Values_eq, newEvents_append]
    show accessesUnder RWMutex.heldShared ⟨false, 0 + 1⟩
      (Event.read :: (List.replicate (maprange d.items).length Event.read ++ [Event.runlock]))
      = true
    rw [accessesUnder, accessesUnder_shared_reads]
    rfl

end Dictionary

/-! ## The contract of the methods, in a sequential execution -/

/-- C1 (defect of `Keys`). `Keys` calls `RLock` and then `RUnlock` at once, without
`defer`, and reads the mapping afterwards: from every state its history is
`RLock, RUnlock, read`, so its access to the mapping happens while the calling
thread holds the lock in no mode, shared or exclusive. -/
theorem keys_reads_mapping_unlocked (d : Dictionary K V) :
    Dictionary.newEvents d (d.Keys).2 = [Event.rlock, Event.runlock, Event.read] ∧
    accessesUnder RWMutex.heldShared RWMutex.free (Dictionary.newEvents d (d.Keys).2) = false ∧
    accessesUnder RWMutex.held RWMutex.free (Dictionary.newEvents d (d.Keys).2) = false := by
  rw [Dictionary.Keys_events]
  exact ⟨rfl, rfl, rfl⟩

/-- C4. For every finite sequence of `Add` and `Remove` calls made one after the
other on an initially empty dictionary, `Length()` afterwards is the number of
distinct keys whose last operation in the sequence is an `Add`. -/
theorem length_after_run (d : Dictionary K V) (hd : (d.Length).1 = 0) (ops : List (Op K V)) :
    ((d.run ops).Length).1 = liveKeyCount ops := by
  rw [Dictionary.Length_fst, maplen_eq_length_maprange]
  unfold liveKeyCount
  apply List.Perm.length_eq
  rw [List.perm_ext_iff_of_nodup (nodup_maprange _) ((List.nodup_dedup _).filter _)]
  intro k
  rw [← mapaccess2_snd_iff, ← Dictionary.Exists_fst, exists_run d hd, List.mem_filter,
    List.mem_dedup]
  constructor
  · intro h
    exact ⟨mem_keys_of_lastIsAdd ops k h, h⟩
  · exact And.right

/-- Witness of C4 on the zero-value dictionary: of the keys 1, 2 and 3 only key 2
ends with an `Add`. -/
theorem length_after_run_witness :
    ((Dictionary.zero : Dictionary Nat Nat).Length).1 = 0 ∧
    (((Dictionary.zero : Dictionary Nat Nat).run
      [Op.add (some 1) (some 10), Op.add (some 2) (some 20), Op.remove (some 1),
        Op.add (some 2) (some 21), Op.remove (some 3)]).Length).1 = 1 ∧
    liveKeyCount ([Op.add (some 1) (some 10), Op.add (some 2) (some 20), Op.remove (some 1),
        Op.add (some 2) (some 21), Op.remove (some 3)] : List (Op Nat Nat)) = 1 :=
  ⟨by decide,
    (length_after_run (Dictionary.zero : Dictionary Nat Nat) (by decide)
      [Op.add (some 1) (some 10), Op.add (some 2) (some 20), Op.remove (some 1),
        Op.add (some 2) (some 21), Op.remove (some 3)]).trans (by decide),
    by decide⟩

/-- C2. Round trip: from every dictionary state (the zero value with its nil map
included), for every key and value, `Add(k, v)` followed at once by `Get(k)`
returns `v`. -/
theorem add_get_roundtrip (d : Dictionary K V) (k : Key K) (v : Value V) :
    ((d.Add k v).Get k).1 = v := by
  rw [Dictionary.Get_fst, Dictionary.Add_items, mapaccess1, mapaccess2_some_fst,
    GoMap.lookup_assign_self]
  rfl

/-- C3. From every state, for every key and value: `Exists(k)` is true right after
`Add(k, v)` and false right after `Remove(k)`, whether or not `k` was present. -/
theorem exists_after_add_and_after_remove (d : Dictionary K V) (k : Key K) (v : Value V) :
    ((d.Add k v).Exists k).1 = true ∧ ((d.Remove k).2.Exists k).1 = false := by
  constructor
  · rw [Dictionary.exists_add, if_pos rfl]
  · rw [Dictionary.exists_remove, if_pos rfl]

/-- C5. `Add(k, v)` inserts or overwrites: if `k` is absent before the call,
`Length()` grows by exactly one; if `k` is present, `Length()` is unchanged; in
both cases `Get(k)` afterwards returns the new `v` (so an old value different
from `v` is no longer returned). -/
theorem add_inserts_or_overwrites (d : Dictionary K V) (k : Key K) (v : Value V) :
    ((d.Exists k).1 = false → ((d.Add k v).Length).1 = (d.Length).1 + 1) ∧
    ((d.Exists k).1 = true →
      ((d.Add k v).Length).1 = (d.Length).1 ∧ ((d.Add k v).Get k).1 = v ∧
        ∀ old : Value V, (d.Get k).1 = old → old ≠ v → ((d.Add k v).Get k).1 ≠ old) := by
  have hget : ((d.Add k v).Get k).1 = v := by
    rw [Dictionary.Get_fst, Dictionary.Add_items, mapaccess1, mapaccess2_some_fst,
      GoMap.lookup_assign_self]
    rfl
  constructor
  · intro h
    rw [Dictionary.length_add, h]
    simp
  · intro h
    refine ⟨?_, hget, ?_⟩
    · rw [Dictionary.length_add, if_pos h]
    · intro old _ hne
      rw [hget]
      exact fun hv => hne hv.symm

/-- C6. `Remove(k)` returns whether an entry existed and was removed: the result
is `Exists(k)` as it was before the call, and when it is true `Length()`
afterwards is exactly one less than before. -/
theorem remove_reports_presence (d : Dictionary K V) (k : Key K) :
    (d.Remove k).1 = (d.Exists k).1 ∧
    ((d.Remove k).1 = true → ((d.Remove k).2.Length).1 + 1 = (d.Length).1) := by
  refine ⟨rfl, ?_⟩
  intro h
  exact Dictionary.length_remove d k h

/-- C7. For every state and every absent key `k` (on the zero value too),
`Remove(k)` returns false, does not alter `Length()` and leaves the mapping as it
was. -/
theorem remove_absent_is_noop (d : Dictionary K V) (k : Key K) (h : (d.Exists k).1 = false) :
    (d.Remove k).1 = false ∧ ((d.Remove k).2.Length).1 = (d.Length).1 ∧
      (d.Remove k).2.items = d.items := by
  refine ⟨h, ?_, Dictionary.remove_items_of_absent d k h⟩
  rw [Dictionary.Length_fst, Dictionary.remove_items_of_absent d k h, Dictionary.Length_fst]

/-- C8. For every state and every key that is not present, `Get(k)` returns the
zero value nil; in particular on the zero-value dictionary and on a dictionary
that has just been cleared, for every key. -/
theorem get_absent_is_nil :
    (∀ (d : Dictionary K V) (k : Key K), (d.Exists k).1 = false → (d.Get k).1 = nil) ∧
    (∀ k : Key K, ((Dictionary.zero : Dictionary K V).Get k).1 = nil) ∧
    (∀ (d : Dictionary K V) (k : Key K), (d.Clear.Get k).1 = nil) := by
  refine ⟨?_, ?_, ?_⟩
  · intro d k h
    exact mapaccess2_fst_of_absent d.items k h
  · intro k
    rfl
  · intro d k
    rfl

/-- C9. `Get` does not distinguish an absent key from a key stored with the zero
value: after `Add(k, nil)`, `Get(k)` returns nil while `Exists(k)` is true, so a
nil result of `Get` does not imply that `Exists` is false. -/
theorem get_nil_does_not_imply_absent :
    (∀ (d : Dictionary K V) (k : Key K),
      ((d.Add k nil).Get k).1 = nil ∧ ((d.Add k nil).Exists k).1 = true) ∧
    ¬ (∀ (d : Dictionary K V) (k : Key K), (d.Get k).1 = nil → (d.Exists k).1 = false) := by
  have h1 : ∀ (d : Dictionary K V) (k : Key K),
      ((d.Add k nil).Get k).1 = nil ∧ ((d.Add k nil).Exists k).1 = true := by
    intro d k
    constructor
    · rw [Dictionary.Get_fst, Dictionary.Add_items, mapaccess1, mapaccess2_some_fst,
        GoMap.lookup_assign_self]
      rfl
    · rw [Dictionary.exists_add, if_pos rfl]
  refine ⟨h1, ?_⟩
  intro hall
  have h2 := h1 (Dictionary.zero : Dictionary K V) nil
  have h3 := hall _ _ h2.1
  rw [h2.2] at h3
  exact Bool.noConfusion h3

/-- C10. From every state (the zero value included) `Clear()` leaves the mapping
empty and initialised, not nil: afterwards `Length() == 0`, and for every key
`Exists(k)` is false and `Get(k)` returns the zero value. -/
theorem clear_leaves_empty_map (d : Dictionary K V) :
    d.Clear.items = some GoMap.empty ∧ d.Clear.items ≠ none ∧ (d.Clear.Length).1 = 0 ∧
      ∀ k : Key K, (d.Clear.Exists k).1 = false ∧ (d.Clear.Get k).1 = nil := by
  refine ⟨rfl, ?_, rfl, fun k => ⟨rfl, rfl⟩⟩
  intro h
  cases h

/-- Witness of C5 on a dictionary holding `1 ↦ 10`: adding the absent key `2`
and overwriting the present key `1`. -/
theorem add_inserts_or_overwrites_witness :
    ((((Dictionary.zero : Dictionary Nat Nat).Add (some 1) (some 10)).Add (some 2) (some 20)).Length).1
        = (((Dictionary.zero : Dictionary Nat Nat).Add (some 1) (some 10)).Length).1 + 1 ∧
    ((((Dictionary.zero : Dictionary Nat Nat).Add (some 1) (some 10)).Add (some 1) (some 11)).Length).1
        = (((Dictionary.zero : Dictionary Nat Nat).Add (some 1) (some 10)).Length).1 ∧
    ((((Dictionary.zero : Dictionary Nat Nat).Add (some 1) (some 10)).Add (some 1) (some 11)).Get
        (some 1)).1 = some 11 :=
  ⟨(add_inserts_or_overwrites ((Dictionary.zero : Dictionary Nat Nat).Add (some 1) (some 10))
      (some 2) (some 20)).1 (by decide),
    ((add_inserts_or_overwrites ((Dictionary.zero : Dictionary Nat Nat).Add (some 1) (some 10))
      (some 1) (some 11)).2 (by decide)).1,
    ((add_inserts_or_overwrites ((Dictionary.zero : Dictionary Nat Nat).Add (some 1) (some 10))
      (some 1) (some 11)).2 (by decide)).2.1⟩

/-- Witness of C6: removing the present key `1` from a dictionary holding `1 ↦ 10`. -/
theorem remove_reports_presence_witness :
    (((Dictionary.zero : Dictionary Nat Nat).Add (some 1) (some 10)).Remove (some 1)).1 = true ∧
    ((((Dictionary.zero : Dictionary Nat Nat).Add (some 1) (some 10)).Remove (some 1)).2.Length).1 + 1
      = (((Dictionary.zero : Dictionary Nat Nat).Add (some 1) (some 10)).Length).1 :=
  ⟨by decide,
    (remove_reports_presence ((Dictionary.zero : Dictionary Nat Nat).Add (some 1) (some 10))
      (some 1)).2 (by decide)⟩

/-- Witness of C7: removing the absent key `2` from a dictionary holding `1 ↦ 10`. -/
theorem remove_absent_is_noop_witness :
    (((Dictionary.zero : Dictionary Nat Nat).Add (some 1) (some 10)).Exists (some 2)).1 = false ∧
    (((Dictionary.zero : Dictionary Nat Nat).Add (some 1) (some 10)).Remove (some 2)).1 = false ∧
    ((((Dictionary.zero : Dictionary Nat Nat).Add (some 1) (some 10)).Remove (some 2)).2.Length).1
      = (((Dictionary.zero : Dictionary Nat Nat).Add (some 1) (some 10)).Length).1 ∧
    (((Dictionary.zero : Dictionary Nat Nat).Add (some 1) (some 10)).Remove (some 2)).2.items
      = ((Dictionary.zero : Dictionary Nat Nat).Add (some 1) (some 10)).items :=
  ⟨by decide,
    remove_absent_is_noop ((Dictionary.zero : Dictionary Nat Nat).Add (some 1) (some 10)) (some 2)
      (by decide)⟩

/-- Witness of C8: the absent key `2` of a dictionary holding `1 ↦ 10`. -/
theorem get_absent_is_nil_witness :
    (((Dictionary.zero : Dictionary Nat Nat).Add (some 1) (some 10)).Exists (some 2)).1 = false ∧
    (((Dictionary.zero : Dictionary Nat Nat).Add (some 1) (some 10)).Get (some 2)).1 = nil :=
  ⟨by decide,
    (@get_absent_is_nil Nat Nat _).1
      ((Dictionary.zero : Dictionary Nat Nat).Add (some 1) (some 10)) (some 2) (by decide)⟩

/-! ## Histories of the methods -/

namespace Dictionary

theorem Add_events (d : Dictionary K V) (k : Key K) (v : Value V) :
    newEvents d (d.Add k v) =
      if d.items.isNone then
        [Event.lock, Event.read, Event.write, Event.write, Event.unlock]
      else [Event.lock, Event.read, Event.write, Event.unlock] := by
  cases d with
  | mk items trace =>
    cases items <;> simp [Add, emit, storeItems, assignItem, newEvents]

theorem Remove_events (d : Dictionary K V) (k : Key K) :
    newEvents d (d.Remove k).2 =
      if (mapaccess2 d.items k).2 = true then
        [Event.lock, Event.read, Event.write, Event.unlock]
      else [Event.lock, Event.read, Event.unlock] := by
  cases d with
  | mk items trace =>
    cases items with
    | none => simp [Remove, emit, newEvents, mapaccess2]
    | some g =>
      by_cases h : (mapaccess2 (some g) k).2 = true <;>
        simp [Remove, emit, deleteItem, newEvents, h]

theorem Clear_events (d : Dictionary K V) :
    newEvents d d.Clear = [Event.lock, Event.write, Event.unlock] := by
  simp [Clear, emit, storeItems, newEvents]

theorem Get_events (d : Dictionary K V) (k : Key K) :
    newEvents d (d.Get k).2 = [Event.rlock, Event.read, Event.runlock] := by
  simp [Get, emit, newEvents]

theorem Exists_events (d : Dictionary K V) (k : Key K) :
    newEvents d (d.Exists k).2 = [Event.rlock, Event.read, Event.runlock] := by
  simp [Exists, emit, newEvents]

theorem Length_events (d : Dictionary K V) :
    newEvents d (d.Length).2 = [Event.rlock, Event.read, Event.runlock] := by
  simp [Length, emit, newEvents]

theorem Values_events (d : Dictionary K V) :
    newEvents d (d.Values).2 =
      Event.rlock :: Event.read ::
        (List.replicate (maprange d.items).length Event.read ++ [Event.runlock]) := by
  rw [Values_eq, newEvents_append]
  rfl

theorem Keys_items (d : Dictionary K V) : (d.Keys).2.items = d.items := rfl

theorem Values_fst (d : Dictionary K V) :
    (d.Values).1 = (maprange d.items).map (mapaccess1 d.items) := by
  rw [Values_eq]

theorem Values_items (d : Dictionary K V) : (d.Values).2.items = d.items := by
  rw [Values_eq]

end Dictionary

theorem cleanRun_reads (m : RWMutex) (n : Nat) (es : List Event) :
    cleanRun m (List.replicate n Event.read ++ es) = cleanRun m es := by
  induction n with
  | zero => rfl
  | succ n ih => rw [List.replicate_succ, List.cons_append, cleanRun, ih]

theorem replay_reads (m : RWMutex) (n : Nat) (es : List Event) :
    m.replay (List.replicate n Event.read ++ es) = m.replay es := by
  induction n with
  | zero => rfl
  | succ n ih =>
    rw [List.replicate_succ, List.cons_append]
    exact ih

theorem acquisitions_reads (n : Nat) (es : List Event) :
    acquisitions (List.replicate n Event.read ++ es) = acquisitions es := by
  induction n with
  | zero => rfl
  | succ n ih =>
    rw [List.replicate_succ, List.cons_append]
    unfold acquisitions at ih ⊢
    rw [List.count_cons_of_ne (by decide), List.count_cons_of_ne (by decide)]
    exact ih

theorem releases_reads (n : Nat) (es : List Event) :
    releases (List.replicate n Event.read ++ es) = releases es := by
  induction n with
  | zero => rfl
  | succ n ih =>
    rw [List.replicate_succ, List.cons_append]
    unfold releases at ih ⊢
    rw [List.count_cons_of_ne (by decide), List.count_cons_of_ne (by decide)]
    exact ih

theorem acquisitions_append (es fs : List Event) :
    acquisitions (es ++ fs) = acquisitions es + acquisitions fs := by
  unfold acquisitions
  rw [List.count_append, List.count_append]
  omega

theorem releases_append (es fs : List Event) :
    releases (es ++ fs) = releases es + releases fs := by
  unfold releases
  rw [List.count_append, List.count_append]
  omega

/-! ## Enumeration and frame facts -/

theorem find_self_of_nodup (es : List (Key K × Value V)) (hnd : (es.map Prod.fst).Nodup)
    (e : Key K × Value V) (he : e ∈ es) :
    es.find? (fun x => decide (x.1 = e.1)) = some e := by
  induction es with
  | nil => simp at he
  | cons a l ih =>
    rw [List.map_cons, List.nodup_cons] at hnd
    rw [List.find?_cons]
    rcases List.mem_cons.1 he with h | h
    · subst h
      simp
    · have hne : ¬ a.1 = e.1 := by
        intro ha
        exact hnd.1 (ha ▸ List.mem_map.2 ⟨e, h, rfl⟩)
      rw [decide_eq_false hne]
      exact ih hnd.2 h

theorem map_mapaccess1_keys (g : GoMap (Key K) (Value V)) :
    g.keys.map (mapaccess1 (some g)) = g.entries.map Prod.snd := by
  unfold GoMap.keys
  rw [List.map_map]
  apply List.map_congr_left
  intro e he
  show mapaccess1 (some g) e.1 = e.2
  rw [mapaccess1, mapaccess2_some_fst, GoMap.lookup, find_self_of_nodup g.entries g.nodupKeys e he]
  rfl

theorem values_eq_entryValues (m : Option (GoMap (Key K) (Value V))) :
    (maprange m).map (mapaccess1 m) = entryValues m := by
  cases m with
  | none => rfl
  | some g => exact map_mapaccess1_keys g

theorem mapaccess1_assign_ne (m : Option (GoMap (Key K) (Value V))) (k k2 : Key K)
    (v : Value V) (hne : k2 ≠ k) :
    mapaccess1 (some ((m.getD GoMap.empty).assign k v)) k2 = mapaccess1 m k2 := by
  rw [mapaccess1, mapaccess2_some_fst, GoMap.lookup_assign_ne _ _ _ _ hne]
  cases m with
  | none => rfl
  | some g => rw [mapaccess1, mapaccess2_some_fst]; rfl

theorem mapaccess1_delete_ne (m : Option (GoMap (Key K) (Value V))) (k k2 : Key K)
    (hne : k2 ≠ k) :
    mapaccess1 (m.map (fun g => g.delete k)) k2 = mapaccess1 m k2 := by
  cases m with
  | none => rfl
  | some g =>
    rw [Option.map_some', mapaccess1, mapaccess2_some_fst, GoMap.lookup_delete_ne _ _ _ hne,
      mapaccess1, mapaccess2_some_fst]

/-! ## The contract of the methods, continued -/

/-- C11. `Clear` is idempotent: from every state `Length() == 0` after a first
`Clear()` and after a second one, and the second call leaves the state the first
one produced: the same (empty, non-nil) mapping, with the lock free again. -/
theorem clear_idempotent (d : Dictionary K V) :
    (d.Clear.Length).1 = 0 ∧ (d.Clear.Clear.Length).1 = 0 ∧
      d.Clear.Clear.items = d.Clear.items ∧
      RWMutex.free.replay (Dictionary.newEvents d d.Clear) = RWMutex.free ∧
      RWMutex.free.replay (Dictionary.newEvents d.Clear d.Clear.Clear) = RWMutex.free := by
  refine ⟨rfl, rfl, rfl, ?_, ?_⟩
  · rw [Dictionary.Clear_events]
    rfl
  · rw [Dictionary.Clear_events]
    rfl

/-- C12. In every state (so in every state reached from an empty dictionary by
`Add`, `Remove` and `Clear`), in a sequential execution `Keys()` returns every
current key exactly once: the result has no duplicates, its length is
`Length()`, and a key occurs in it exactly when `Exists(k)` is true. -/
theorem keys_contract (d : Dictionary K V) :
    (d.Keys).1.Nodup ∧ (d.Keys).1.length = (d.Length).1 ∧
      ∀ k : Key K, k ∈ (d.Keys).1 ↔ (d.Exists k).1 = true := by
  rw [Dictionary.Keys_fst, Dictionary.Length_fst, maplen_eq_length_maprange]
  refine ⟨nodup_maprange _, rfl, ?_⟩
  intro k
  rw [Dictionary.Exists_fst, mapaccess2_snd_iff]

/-- C13. In every state, in a sequential execution `Values()` returns a sequence
of length `Length()` that is, up to order, the sequence of the values of the
current entries, which is the sequence of `Get(k)` for `k` ranging over
`Keys()`. -/
theorem values_contract (d : Dictionary K V) :
    (d.Values).1.length = (d.Length).1 ∧
      List.Perm (d.Values).1 (entryValues d.items) ∧
      List.Perm (d.Values).1 ((d.Keys).1.map (fun k => (d.Get k).1)) := by
  refine ⟨?_, ?_, ?_⟩
  · rw [Dictionary.Values_fst, List.length_map, Dictionary.Length_fst, maplen_eq_length_maprange]
  · rw [Dictionary.Values_fst, values_eq_entryValues]
  · rw [Dictionary.Values_fst, Dictionary.Keys_fst]
    exact List.Perm.refl _

/-- C15. Every method is total in a sequential execution: from every state (the
zero value with its nil map included) and for every key and value, the history
of each of the eight methods runs to its end without a fault, without waiting
for a lock its caller already holds and without releasing an unlocked mutex.
In particular `Add` raises no fault for writing to a nil map, because the
mapping is not nil when it assigns. -/
theorem methods_are_total (d : Dictionary K V) (k : Key K) (v : Value V) :
    cleanRun RWMutex.free (Dictionary.newEvents d (d.Add k v)) = true ∧
    cleanRun RWMutex.free (Dictionary.newEvents d (d.Remove k).2) = true ∧
    cleanRun RWMutex.free (Dictionary.newEvents d (d.Get k).2) = true ∧
    cleanRun RWMutex.free (Dictionary.newEvents d (d.Exists k).2) = true ∧
    cleanRun RWMutex.free (Dictionary.newEvents d d.Clear) = true ∧
    cleanRun RWMutex.free (Dictionary.newEvents d (d.Length).2) = true ∧
    cleanRun RWMutex.free (Dictionary.newEvents d (d.Keys).2) = true ∧
    cleanRun RWMutex.free (Dictionary.newEvents d (d.Values).2) = true ∧
    Event.fault ∉ Dictionary.newEvents d (d.Add k v) ∧
    (d.Add k v).items ≠ none := by
  refine ⟨?_, ?_, ?_, ?_, ?_, ?_, ?_, ?_, ?_, ?_⟩
  · rw [Dictionary.Add_events]
    split <;> rfl
  · rw [Dictionary.Remove_events]
    split <;> rfl
  · rw [Dictionary.Get_events]
    rfl
  · rw [Dictionary.Exists_events]
    rfl
  · rw [Dictionary.Clear_events]
    rfl
  · rw [Dictionary.Length_events]
    rfl
  · rw [Dictionary.Keys_events]
    rfl
  · rw [Dictionary.Values_events]
    show cleanRun ⟨false, 1⟩ (List.replicate _ Event.read ++ [Event.runlock]) = true
    rw [cleanRun_reads]
    rfl
  · rw [Dictionary.Add_events]
    split <;> decide
  · rw [Dictionary.Add_items]
    exact fun h => Option.noConfusion h

/-- C17. No method locks re-entrantly or in a nested way: from every state the
history of each of the eight methods acquires the lock exactly once and releases
it exactly once, never acquires it while holding it (so no method of the
dictionary, each of which begins by acquiring the lock, is called while it is
held), and leaves the lock free when the method returns. -/
theorem methods_lock_exactly_once (d : Dictionary K V) (k : Key K) (v : Value V) :
    lockedOnce (Dictionary.newEvents d (d.Add k v)) ∧
    lockedOnce (Dictionary.newEvents d (d.Remove k).2) ∧
    lockedOnce (Dictionary.newEvents d (d.Get k).2) ∧
    lockedOnce (Dictionary.newEvents d (d.Exists k).2) ∧
    lockedOnce (Dictionary.newEvents d d.Clear) ∧
    lockedOnce (Dictionary.newEvents d (d.Length).2) ∧
    lockedOnce (Dictionary.newEvents d (d.Keys).2) ∧
    lockedOnce (Dictionary.newEvents d (d.Values).2) := by
  unfold lockedOnce
  refine ⟨?_, ?_, ?_, ?_, ?_, ?_, ?_, ?_⟩
  · rw [Dictionary.Add_events]
    split <;> exact ⟨rfl, rfl, rfl, rfl⟩
  · rw [Dictionary.Remove_events]
    split <;> exact ⟨rfl, rfl, rfl, rfl⟩
  · rw [Dictionary.Get_events]
    exact ⟨rfl, rfl, rfl, rfl⟩
  · rw [Dictionary.Exists_events]
    exact ⟨rfl, rfl, rfl, rfl⟩
  · rw [Dictionary.Clear_events]
    exact ⟨rfl, rfl, rfl, rfl⟩
  · rw [Dictionary.Length_events]
    exact ⟨rfl, rfl, rfl, rfl⟩
  · rw [Dictionary.Keys_events]
    exact ⟨rfl, rfl, rfl, rfl⟩
  · rw [Dictionary.Values_events]
    refine ⟨?_, ?_, ?_, ?_⟩
    · show acquisitions ([Event.rlock, Event.read] ++
        (List.replicate _ Event.read ++ [Event.runlock])) = 1
      rw [acquisitions_append, acquisitions_reads]
      rfl
    · show releases ([Event.rlock, Event.read] ++
        (List.replicate _ Event.read ++ [Event.runlock])) = 1
      rw [releases_append, releases_reads]
      rfl
    · show cleanRun ⟨false, 1⟩ (List.replicate _ Event.read ++ [Event.runlock]) = true
      rw [cleanRun_reads]
      rfl
    · show RWMutex.replay ⟨false, 1⟩ (List.replicate _ Event.read ++ [Event.runlock]) = _
      rw [replay_reads]
      rfl

/-- C18. `Add` and `Remove` affect only the entry of their own key: for every
state, key `k`, value `v` and key `k2` different from `k`, `Exists(k2)` and
`Get(k2)` give the same results after `Add(k, v)` and after `Remove(k)` as
before the call. -/
theorem add_remove_frame (d : Dictionary K V) (k k2 : Key K) (v : Value V) (hne : k2 ≠ k) :
    ((d.Add k v).Exists k2).1 = (d.Exists k2).1 ∧
    ((d.Add k v).Get k2).1 = (d.Get k2).1 ∧
    ((d.Remove k).2.Exists k2).1 = (d.Exists k2).1 ∧
    ((d.Remove k).2.Get k2).1 = (d.Get k2).1 := by
  refine ⟨?_, ?_, ?_, ?_⟩
  · rw [Dictionary.exists_add, if_neg hne]
  · rw [Dictionary.Get_fst, Dictionary.Add_items, mapaccess1_assign_ne _ _ _ _ hne,
      Dictionary.Get_fst]
  · rw [Dictionary.exists_remove, if_neg hne]
  · rw [Dictionary.Get_fst, Dictionary.Remove_items, mapaccess1_delete_ne _ _ _ hne,
      Dictionary.Get_fst]

/-- Witness of C18: on a dictionary holding `1 ↦ 10` and `2 ↦ 20`, adding to and
removing key `1` leaves what `Exists(2)` and `Get(2)` return. -/
theorem add_remove_frame_witness :
    (((((Dictionary.zero : Dictionary Nat Nat).Add (some 1) (some 10)).Add (some 2) (some 20)).Add
        (some 1) (some 11)).Exists (some 2)).1 = true ∧
    (((((Dictionary.zero : Dictionary Nat Nat).Add (some 1) (some 10)).Add (some 2)
        (some 20)).Remove (some 1)).2.Get (some 2)).1 = some 20 :=
  ⟨(add_remove_frame
      (((Dictionary.zero : Dictionary Nat Nat).Add (some 1) (some 10)).Add (some 2) (some 20))
      (some 1) (some 2) (some 11) (by decide)).1.trans (by decide),
    (add_remove_frame
      (((Dictionary.zero : Dictionary Nat Nat).Add (some 1) (some 10)).Add (some 2) (some 20))
      (some 1) (some 2) (some 11) (by decide)).2.2.2.trans (by decide)⟩

/-- C19. The read-only methods `Get`, `Exists`, `Length`, `Keys` and `Values`
leave the mapping as it was, for every state and key, so calling any of them a
second time gives the same result (for `Keys` and `Values`, the same up to
order). -/
theorem read_only_methods_frame (d : Dictionary K V) (k : Key K) :
    ((d.Get k).2.items = d.items ∧ (d.Exists k).2.items = d.items ∧
      (d.Length).2.items = d.items ∧ (d.Keys).2.items = d.items ∧
      (d.Values).2.items = d.items) ∧
    (((d.Get k).2.Get k).1 = (d.Get k).1 ∧ ((d.Exists k).2.Exists k).1 = (d.Exists k).1 ∧
      ((d.Length).2.Length).1 = (d.Length).1 ∧
      List.Perm ((d.Keys).2.Keys).1 (d.Keys).1 ∧
      List.Perm ((d.Values).2.Values).1 (d.Values).1) := by
  refine ⟨⟨rfl, rfl, rfl, rfl, Dictionary.Values_items d⟩, rfl, rfl, rfl, ?_, ?_⟩
  · rw [Dictionary.Keys_fst, Dictionary.Keys_fst, Dictionary.Keys_items]
  · rw [Dictionary.Values_fst, Dictionary.Values_fst, Dictionary.Values_items]

/-! ## The zero value and a cleared dictionary -/

theorem mapaccess2_getD (m : Option (GoMap (Key K) (Value V))) (k : Key K) :
    mapaccess2 m k = mapaccess2 (some (m.getD GoMap.empty)) k := by
  cases m with
  | none => rfl
  | some g => rfl

theorem maplen_getD (m : Option (GoMap (Key K) (Value V))) :
    maplen m = (m.getD GoMap.empty).len := by
  cases m <;> rfl

theorem maprange_getD (m : Option (GoMap (Key K) (Value V))) :
    maprange m = (m.getD GoMap.empty).keys := by
  cases m <;> rfl

theorem getD_map_delete (m : Option (GoMap (Key K) (Value V))) (k : Key K) :
    (m.map (fun g => g.delete k)).getD GoMap.empty = (m.getD GoMap.empty).delete k := by
  cases m with
  | none => exact GoMap.ext_entries rfl
  | some g => rfl

theorem call_of_same_entries (d1 d2 : Dictionary K V)
    (h : d1.items.getD GoMap.empty = d2.items.getD GoMap.empty) (c : Call K V) :
    (d1.call c).1 = (d2.call c).1 ∧
      (d1.call c).2.items.getD GoMap.empty = (d2.call c).2.items.getD GoMap.empty := by
  cases c with
  | Add key value =>
    refine ⟨rfl, ?_⟩
    show (d1.Add key value).items.getD _ = (d2.Add key value).items.getD _
    rw [Dictionary.Add_items, Dictionary.Add_items, h]
  | Remove key =>
    constructor
    · show Result.bool (d1.Remove key).1 = Result.bool (d2.Remove key).1
      rw [Dictionary.Remove_fst, Dictionary.Remove_fst, mapaccess2_getD d1.items,
        mapaccess2_getD d2.items, h]
    · show (d1.Remove key).2.items.getD _ = (d2.Remove key).2.items.getD _
      rw [Dictionary.Remove_items, Dictionary.Remove_items, getD_map_delete, getD_map_delete, h]
  | Get key =>
    refine ⟨?_, h⟩
    show Result.value (d1.Get key).1 = Result.value (d2.Get key).1
    rw [Dictionary.Get_fst, Dictionary.Get_fst, mapaccess1, mapaccess1,
      mapaccess2_getD d1.items, mapaccess2_getD d2.items, h]
  | Exists key =>
    refine ⟨?_, h⟩
    show Result.bool (d1.Exists key).1 = Result.bool (d2.Exists key).1
    rw [Dictionary.Exists_fst, Dictionary.Exists_fst, mapaccess2_getD d1.items,
      mapaccess2_getD d2.items, h]
  | Clear => exact ⟨rfl, rfl⟩
  | Length =>
    refine ⟨?_, h⟩
    show Result.int (d1.Length).1 = Result.int (d2.Length).1
    rw [Dictionary.Length_fst, Dictionary.Length_fst, maplen_getD d1.items,
      maplen_getD d2.items, h]
  | Keys =>
    refine ⟨?_, h⟩
    show Result.keys (d1.Keys).1 = Result.keys (d2.Keys).1
    rw [Dictionary.Keys_fst, Dictionary.Keys_fst, maprange_getD d1.items,
      maprange_getD d2.items, h]
  | Values =>
    constructor
    · show Result.values (d1.Values).1 = Result.values (d2.Values).1
      have hacc : mapaccess1 d1.items = mapaccess1 d2.items := by
        funext key
        rw [mapaccess1, mapaccess1, mapaccess2_getD d1.items, mapaccess2_getD d2.items, h]
      rw [Dictionary.Values_fst, Dictionary.Values_fst, maprange_getD d1.items,
        maprange_getD d2.items, h, hacc]
    · show (d1.Values).2.items.getD _ = (d2.Values).2.items.getD _
      rw [Dictionary.Values_items, Dictionary.Values_items, h]

theorem results_of_same_entries (cs : List (Call K V)) (d1 d2 : Dictionary K V)
    (h : d1.items.getD GoMap.empty = d2.items.getD GoMap.empty) :
    d1.results cs = d2.results cs := by
  induction cs generalizing d1 d2 with
  | nil => rfl
  | cons c cs ih =>
    have hc := call_of_same_entries d1 d2 h c
    show (d1.call c).1 :: (d1.call c).2.results cs = (d2.call c).1 :: (d2.call c).2.results cs
    rw [hc.1, ih _ _ hc.2]

/-- C14. The concrete scenario, run sequentially on an empty dictionary: after
`Add("a", 1)` and `Add("b", 2)`, `Length() == 2`; then `Remove("a")` returns
true, `Exists("a")` is false, `Get("a")` is the zero value and `Keys()` is, as a
set, `{"b"}`; then after `Clear()`, `Length() == 0`. -/
theorem concrete_scenario :
    (scenarioAdded.Length).1 = 2 ∧
    (scenarioMeasured.Remove (some "a")).1 = true ∧
    (scenarioRemoved.Exists (some "a")).1 = false ∧
    ((scenarioRemoved.Exists (some "a")).2.Get (some "a")).1 = nil ∧
    (∀ k : Key String, k ∈ (scenarioQueried.Keys).1 ↔ k = some "b") ∧
    (scenarioCleared.Length).1 = 0 := by
  have hkeys : (scenarioQueried.Keys).1 = [some "b"] := by decide
  refine ⟨by decide, by decide, by decide, by decide, ?_, by decide⟩
  intro k
  rw [hkeys, List.mem_singleton]

/-- C20. The zero-value dictionary (nil map) cannot be told from a dictionary that
has just been cleared: on both `Length() == 0`, `Exists(k)` is false, `Get(k)` is
the zero value and `Remove(k)` is false for every key, `Keys()` and `Values()`
are empty, and every further sequence of calls returns the same results on both. -/
theorem zero_equivalent_to_cleared (d : Dictionary K V) :
    (((Dictionary.zero : Dictionary K V).Length).1 = 0 ∧ (d.Clear.Length).1 = 0) ∧
    (∀ k : Key K,
      (((Dictionary.zero : Dictionary K V).Exists k).1 = false ∧ (d.Clear.Exists k).1 = false) ∧
      (((Dictionary.zero : Dictionary K V).Get k).1 = nil ∧ (d.Clear.Get k).1 = nil) ∧
      (((Dictionary.zero : Dictionary K V).Remove k).1 = false ∧ (d.Clear.Remove k).1 = false)) ∧
    (((Dictionary.zero : Dictionary K V).Keys).1 = [] ∧ (d.Clear.Keys).1 = []) ∧
    (((Dictionary.zero : Dictionary K V).Values).1 = [] ∧ (d.Clear.Values).1 = []) ∧
    ∀ cs : List (Call K V), (Dictionary.zero : Dictionary K V).results cs = d.Clear.results cs := by
  refine ⟨⟨rfl, rfl⟩, fun k => ⟨⟨rfl, rfl⟩, ⟨rfl, rfl⟩, ⟨rfl, rfl⟩⟩, ⟨?_, ?_⟩, ⟨?_, ?_⟩, ?_⟩
  · rw [Dictionary.Keys_fst]; rfl
  · rw [Dictionary.Keys_fst]; rfl
  · rw [Dictionary.Values_fst]; rfl
  · rw [Dictionary.Values_fst]; rfl
  · intro cs
    exact results_of_same_entries cs _ _ rfl

/-! ## Concurrent callers of `Add` -/

theorem getElem?_set_cases {α : Type} (l : List α) (i j : Nat) (a b : α)
    (h : (l.set i a)[j]? = some b) : (j = i ∧ b = a) ∨ (j ≠ i ∧ l[j]? = some b) := by
  by_cases hij : i = j
  · subst hij
    rw [List.getElem?_set, if_pos rfl] at h
    split at h
    · exact Or.inl ⟨rfl, (Option.some.inj h).symm⟩
    · exact Option.noConfusion h
  · rw [List.getElem?_set_ne hij] at h
    exact Or.inr ⟨fun hji => hij hji.symm, h⟩

theorem pendingKeys_set_of_eq (l : List (Thread K V)) (i : Nat) (t t2 : Thread K V)
    (h : l[i]? = some t) (hp : t2.pending = t.pending) :
    pendingKeys (l.set i t2) = pendingKeys l := by
  induction l generalizing i with
  | nil => rfl
  | cons a l ih =>
    cases i with
    | zero =>
      rw [List.getElem?_cons_zero] at h
      cases Option.some.inj h
      rw [List.set_cons_zero, pendingKeys, pendingKeys, hp]
    | succ n =>
      rw [List.getElem?_cons_succ] at h
      rw [List.set_cons_succ, pendingKeys, pendingKeys, ih n h]

theorem pendingKeys_set_cons (l : List (Thread K V)) (i : Nat) (t t2 : Thread K V) (k : Key K)
    (h : l[i]? = some t) (hp : t.pending = k :: t2.pending) :
    List.Perm (pendingKeys l) (k :: pendingKeys (l.set i t2)) := by
  induction l generalizing i with
  | nil => simp at h
  | cons a l ih =>
    cases i with
    | zero =>
      rw [List.getElem?_cons_zero] at h
      cases Option.some.inj h
      rw [List.set_cons_zero, pendingKeys, pendingKeys, hp]
      exact List.Perm.refl _
    | succ n =>
      rw [List.getElem?_cons_succ] at h
      rw [List.set_cons_succ, pendingKeys, pendingKeys]
      exact (List.Perm.append_left a.pending (ih n h)).trans List.perm_middle

theorem fuelSum_set_lt (l : List (Thread K V)) (i : Nat) (t t2 : Thread K V)
    (h : l[i]? = some t) (hlt : t2.fuel < t.fuel) :
    fuelSum (l.set i t2) < fuelSum l := by
  induction l generalizing i with
  | nil => simp at h
  | cons a l ih =>
    cases i with
    | zero =>
      rw [List.getElem?_cons_zero] at h
      cases Option.some.inj h
      rw [List.set_cons_zero, fuelSum, fuelSum]
      omega
    | succ n =>
      rw [List.getElem?_cons_succ] at h
      rw [List.set_cons_succ, fuelSum, fuelSum]
      have := ih n h
      omega

theorem keys_assign_of_not_mem (g : GoMap (Key K) (Value V)) (k : Key K) (v : Value V)
    (h : k ∉ g.keys) : (g.assign k v).keys = g.keys ++ [k] := by
  unfold GoMap.keys at h ⊢
  show (GoMap.assignEntries g.entries k v).map Prod.fst = _
  rw [GoMap.assignEntries, if_neg h, List.map_append]
  rfl

namespace Config

theorem Inv.others_idle {all : List (Key K)} {c : Config K V} (hinv : c.Inv all) {i : Nat}
    {t : Thread K V} (ht : c.threads[i]? = some t) (hcan : t.pc ≠ Pc.idle ∨ c.lock = RWMutex.free) :
    ∀ (j : Nat) (t2 : Thread K V), j ≠ i → c.threads[j]? = some t2 → t2.pc = Pc.idle := by
  obtain ⟨o, how, _, hown⟩ := hinv.owner
  intro j t2 hji hj
  by_contra hpc
  have hoj : o = some j := (hown j t2 hj).1 hpc
  rcases hcan with hbusy | hfree
  · have hoi : o = some i := (hown i t ht).1 hbusy
    rw [hoi] at hoj
    exact hji (Option.some.inj hoj).symm
  · rw [hfree, hoj] at how
    exact Bool.noConfusion how

theorem Inv.of_parts {all : List (Key K)} {c : Config K V} {i : Nat} {t : Thread K V}
    (ht : c.threads[i]? = some t)
    (hothers : ∀ (j : Nat) (t2 : Thread K V), j ≠ i → c.threads[j]? = some t2 → t2.pc = Pc.idle)
    (t2 : Thread K V) (d2 : Dictionary K V) (m2 : RWMutex)
    (hreaders : m2.readers = 0)
    (hwriter : m2.writer = decide (t2.pc ≠ Pc.idle))
    (hsaw : t2.pc = Pc.sawNil → d2.items = none)
    (hready : t2.pc = Pc.ready → d2.items ≠ none)
    (hbusy : t2.pc ≠ Pc.idle → t2.todo ≠ [])
    (hkeys : List.Perm (pendingKeys (c.threads.set i t2) ++ maprange d2.items) all) :
    Inv all ⟨d2, m2, c.threads.set i t2⟩ := by
  have hlen : i < c.threads.length := (List.getElem?_eq_some.1 ht).1
  refine ⟨hreaders, ?_, ?_, ?_, ?_, hkeys⟩
  · refine ⟨if t2.pc ≠ Pc.idle then some i else none, ?_, ?_, ?_⟩
    · show m2.writer = _
      rw [hwriter]
      by_cases h : t2.pc ≠ Pc.idle
      · rw [if_pos h, decide_eq_true h]
        rfl
      · rw [if_neg h, decide_eq_false h]
        rfl
    · intro j hj
      show j < (c.threads.set i t2).length
      rw [List.length_set]
      by_cases h : t2.pc ≠ Pc.idle
      · rw [if_pos h] at hj
        cases Option.some.inj hj
        exact hlen
      · rw [if_neg h] at hj
        exact Option.noConfusion hj
    · intro j t3 hj
      rcases getElem?_set_cases _ _ _ _ _ hj with ⟨hji, h3⟩ | ⟨hji, h3⟩
      · subst hji
        subst h3
        by_cases h : t3.pc ≠ Pc.idle
        · rw [if_pos h]
          exact ⟨fun _ => rfl, fun _ => h⟩
        · rw [if_neg h]
          exact ⟨fun h2 => absurd h2 h, fun h2 => Option.noConfusion h2⟩
      · have hidle := hothers j t3 hji h3
        constructor
        · intro h
          exact absurd hidle h
        · intro h
          by_cases h2 : t2.pc ≠ Pc.idle
          · rw [if_pos h2] at h
            exact absurd (Option.some.inj h).symm hji
          · rw [if_neg h2] at h
            exact Option.noConfusion h
  · intro j t3 hj hpc
    rcases getElem?_set_cases _ _ _ _ _ hj with ⟨_, h3⟩ | ⟨hji, h3⟩
    · subst h3
      exact hsaw hpc
    · have hidle := hothers j t3 hji h3
      rw [hidle] at hpc
      exact Pc.noConfusion hpc
  · intro j t3 hj hpc
    rcases getElem?_set_cases _ _ _ _ _ hj with ⟨_, h3⟩ | ⟨hji, h3⟩
    · subst h3
      exact hready hpc
    · have hidle := hothers j t3 hji h3
      rw [hidle] at hpc
      exact Pc.noConfusion hpc
  · intro j t3 hj hpc
    rcases getElem?_set_cases _ _ _ _ _ hj with ⟨_, h3⟩ | ⟨hji, h3⟩
    · subst h3
      exact hbusy hpc
    · exact absurd (hothers j t3 hji h3) hpc

theorem step_eq {c c2 : Config K V} {i : Nat} (hstep : c.step i = some c2) :
    ∃ t t2 d2 m2, c.threads[i]? = some t ∧ t.step c.d c.lock = some (t2, d2, m2) ∧
      c2 = ⟨d2, m2, c.threads.set i t2⟩ := by
  unfold step at hstep
  cases ht : c.threads[i]? with
  | none =>
    rw [ht] at hstep
    exact Option.noConfusion hstep
  | some t =>
    rw [ht] at hstep
    cases hs : t.step c.d c.lock with
    | none =>
      simp only [hs] at hstep
      exact Option.noConfusion hstep
    | some r =>
      obtain ⟨t2, d2, m2⟩ := r
      simp only [hs] at hstep
      exact ⟨t, t2, d2, m2, rfl, hs, (Option.some.inj hstep).symm⟩

theorem Inv.step {all : List (Key K)} (hnd : all.Nodup) {c c2 : Config K V} (hinv : c.Inv all)
    {i : Nat} (hstep : c.step i = some c2) : c2.Inv all := by
  obtain ⟨t, t2, d2, m2, ht, hs, hc2⟩ := step_eq hstep
  subst hc2
  obtain ⟨pc, todo⟩ := t
  cases todo with
  | nil => exact Option.noConfusion hs
  | cons kv rest =>
    obtain ⟨key, value⟩ := kv
    cases pc with
    | idle =>
      by_cases hfree : c.lock = RWMutex.free
      · simp only [Thread.step, if_pos hfree, Option.some.injEq, Prod.mk.injEq] at hs
        obtain ⟨h1, h2, h3⟩ := hs
        subst h1 h2 h3
        refine Inv.of_parts ht (hinv.others_idle ht (Or.inr hfree)) _ _ _ hinv.readers ?_ ?_ ?_ ?_ ?_
        · rw [hfree]
          rfl
        · intro h
          exact Pc.noConfusion h
        · intro h
          exact Pc.noConfusion h
        · intro _
          exact List.cons_ne_nil _ _
        · rw [pendingKeys_set_of_eq _ _ _ (Thread.mk Pc.locked ((key, value) :: rest)) ht rfl]
          exact hinv.keys
      · simp only [Thread.step, if_neg hfree] at hs
        exact Option.noConfusion hs
    | locked =>
      simp only [Thread.step, Option.some.injEq, Prod.mk.injEq] at hs
      obtain ⟨h1, h2, h3⟩ := hs
      subst h1 h2 h3
      have hbusy : (Thread.mk Pc.locked ((key, value) :: rest) : Thread K V).pc ≠ Pc.idle :=
        fun h => Pc.noConfusion h
      obtain ⟨o, how, _, hown⟩ := hinv.owner
      have ho := (hown i _ ht).1 hbusy
      have hw : c.lock.writer = true := by rw [how, ho]; rfl
      refine Inv.of_parts ht (hinv.others_idle ht (Or.inl hbusy)) _ _ _ hinv.readers ?_ ?_ ?_ ?_ ?_
      · rw [hw]
        show true = decide ((if (c.d.emit Event.read).items.isNone then Pc.sawNil else Pc.ready)
          ≠ Pc.idle)
        split <;> rfl
      · show (if (c.d.emit Event.read).items.isNone then Pc.sawNil else Pc.ready) = Pc.sawNil →
          (c.d.emit Event.read).items = none
        split
        · rename_i h
          intro _
          exact Option.isNone_iff_eq_none.1 h
        · intro h
          exact Pc.noConfusion h
      · show (if (c.d.emit Event.read).items.isNone then Pc.sawNil else Pc.ready) = Pc.ready →
          (c.d.emit Event.read).items ≠ none
        split
        · intro h
          exact Pc.noConfusion h
        · rename_i h
          intro _ hn
          exact h (Option.isNone_iff_eq_none.2 hn)
      · intro _
        exact List.cons_ne_nil _ _
      · have hp : (Thread.mk (if (c.d.emit Event.read).items.isNone then Pc.sawNil else Pc.ready)
            ((key, value) :: rest) : Thread K V).pending =
            (Thread.mk Pc.locked ((key, value) :: rest) : Thread K V).pending := by
          by_cases h : (c.d.emit Event.read).items.isNone = true
          · rw [if_pos h]
            rfl
          · rw [if_neg h]
            rfl
        rw [pendingKeys_set_of_eq _ _ _ _ ht hp]
        exact hinv.keys
    | sawNil =>
      simp only [Thread.step, Option.some.injEq, Prod.mk.injEq] at hs
      obtain ⟨h1, h2, h3⟩ := hs
      subst h1 h2 h3
      have hbusy : (Thread.mk Pc.sawNil ((key, value) :: rest) : Thread K V).pc ≠ Pc.idle :=
        fun h => Pc.noConfusion h
      obtain ⟨o, how, _, hown⟩ := hinv.owner
      have ho := (hown i _ ht).1 hbusy
      have hw : c.lock.writer = true := by rw [how, ho]; rfl
      have hnil : c.d.items = none := hinv.sawNil i _ ht rfl
      refine Inv.of_parts ht (hinv.others_idle ht (Or.inl hbusy)) _ _ _ hinv.readers ?_ ?_ ?_ ?_ ?_
      · rw [hw]
        rfl
      · intro h
        exact Pc.noConfusion h
      · intro _ h
        exact Option.noConfusion h
      · intro _
        exact List.cons_ne_nil _ _
      · rw [pendingKeys_set_of_eq _ _ _ (Thread.mk Pc.ready ((key, value) :: rest)) ht rfl]
        have hk := hinv.keys
        rw [hnil] at hk
        exact hk
    | ready =>
      simp only [Thread.step, Option.some.injEq, Prod.mk.injEq] at hs
      obtain ⟨h1, h2, h3⟩ := hs
      subst h1 h2 h3
      have hbusy : (Thread.mk Pc.ready ((key, value) :: rest) : Thread K V).pc ≠ Pc.idle :=
        fun h => Pc.noConfusion h
      obtain ⟨o, how, _, hown⟩ := hinv.owner
      have ho := (hown i _ ht).1 hbusy
      have hw : c.lock.writer = true := by rw [how, ho]; rfl
      have hsome : c.d.items ≠ none := hinv.ready i _ ht rfl
      cases hitems : c.d.items with
      | none => exact absurd hitems hsome
      | some g =>
        have hperm : List.Perm (pendingKeys c.threads)
            (key :: pendingKeys (c.threads.set i ⟨Pc.assigned, (key, value) :: rest⟩)) :=
          pendingKeys_set_cons _ _ _ _ key ht rfl
        have hk := hinv.keys
        rw [hitems] at hk
        have hnd2 : (pendingKeys c.threads ++ maprange (some g)).Nodup := hk.nodup_iff.2 hnd
        have hnot : key ∉ g.keys := by
          intro hmem
          exact (List.nodup_append.1 hnd2).2.2 (hperm.mem_iff.2 (List.mem_cons_self _ _)) hmem
        have hassign : (c.d.assignItem key value).items = some (g.assign key value) := by
          unfold Dictionary.assignItem
          rw [hitems]
        refine Inv.of_parts ht (hinv.others_idle ht (Or.inl hbusy)) _ _ _ hinv.readers ?_ ?_ ?_ ?_ ?_
        · rw [hw]
          rfl
        · intro h
          exact Pc.noConfusion h
        · intro h
          exact Pc.noConfusion h
        · intro _
          exact List.cons_ne_nil _ _
        · rw [hassign]
          show List.Perm (_ ++ (g.assign key value).keys) all
          rw [keys_assign_of_not_mem g key value hnot]
          refine List.Perm.trans ?_ hk
          show List.Perm (_ ++ (g.keys ++ [key])) (pendingKeys c.threads ++ g.keys)
          refine List.Perm.trans ?_ (List.Perm.append_right g.keys hperm.symm)
          rw [← List.append_assoc]
          exact (List.perm_append_singleton key _).trans (List.Perm.refl _)
    | assigned =>
      simp only [Thread.step, Option.some.injEq, Prod.mk.injEq] at hs
      obtain ⟨h1, h2, h3⟩ := hs
      subst h1 h2 h3
      have hbusy : (Thread.mk Pc.assigned ((key, value) :: rest) : Thread K V).pc ≠ Pc.idle :=
        fun h => Pc.noConfusion h
      refine Inv.of_parts ht (hinv.others_idle ht (Or.inl hbusy)) _ _ _ hinv.readers ?_ ?_ ?_ ?_ ?_
      · rfl
      · intro h
        exact Pc.noConfusion h
      · intro h
        exact Pc.noConfusion h
      · intro h
        exact absurd rfl h
      · rw [pendingKeys_set_of_eq _ _ _ (Thread.mk Pc.idle rest) ht rfl]
        exact hinv.keys

theorem Inv.exec {all : List (Key K)} (hnd : all.Nodup) (sched : List Nat) {c c2 : Config K V}
    (hinv : c.Inv all) (hrun : c.exec sched = some c2) : c2.Inv all := by
  induction sched generalizing c with
  | nil =>
    cases Option.some.inj hrun
    exact hinv
  | cons i sched ih =>
    unfold Config.exec at hrun
    cases hs : c.step i with
    | none =>
      simp only [hs] at hrun
      exact Option.noConfusion hrun
    | some c3 =>
      simp only [hs] at hrun
      exact ih (hinv.step hnd hs) hrun

theorem pendingKeys_start (work : List (List (Key K × Value V))) :
    pendingKeys (work.map (fun w => (⟨Pc.idle, w⟩ : Thread K V))) = work.flatten.map Prod.fst := by
  induction work with
  | nil => rfl
  | cons w work ih =>
    rw [List.map_cons, pendingKeys, ih, List.flatten_cons, List.map_append]
    rfl

theorem fuelSum_start (work : List (List (Key K × Value V))) :
    fuelSum (work.map (fun w => (⟨Pc.idle, w⟩ : Thread K V))) = 5 * work.flatten.length := by
  induction work with
  | nil => rfl
  | cons w work ih =>
    rw [List.map_cons, fuelSum, ih, List.flatten_cons, List.length_append]
    show 5 * w.length - 0 + _ = _
    omega

theorem length_flatten_of_uniform (work : List (List (Key K × Value V))) (M : Nat)
    (hM : ∀ w ∈ work, w.length = M) : work.flatten.length = work.length * M := by
  induction work with
  | nil => simp
  | cons w work ih =>
    rw [List.flatten_cons, List.length_append, hM w (List.mem_cons_self _ _),
      ih (fun x hx => hM x (List.mem_cons_of_mem _ hx)), List.length_cons, Nat.succ_mul]
    omega

theorem start_idle (d : Dictionary K V) (work : List (List (Key K × Value V))) (i : Nat)
    (t : Thread K V) (ht : (start d work).threads[i]? = some t) : t.pc = Pc.idle := by
  unfold start at ht
  simp only [List.getElem?_map] at ht
  cases hw : work[i]? with
  | none =>
    rw [hw] at ht
    exact Option.noConfusion ht
  | some w =>
    rw [hw] at ht
    cases Option.some.inj ht
    rfl

theorem Inv.start (d : Dictionary K V) (hd : (d.Length).1 = 0)
    (work : List (List (Key K × Value V))) :
    (start d work).Inv (work.flatten.map Prod.fst) := by
  have hrange : maprange d.items = [] := by
    rw [Dictionary.Length_fst, maplen_eq_length_maprange, List.length_eq_zero] at hd
    exact hd
  refine ⟨rfl, ⟨none, rfl, ?_, ?_⟩, ?_, ?_, ?_, ?_⟩
  · intro i h
    exact Option.noConfusion h
  · intro i t ht
    have hidle := start_idle d work i t ht
    exact ⟨fun h => absurd hidle h, fun h => Option.noConfusion h⟩
  · intro i t ht hpc
    rw [start_idle d work i t ht] at hpc
    exact Pc.noConfusion hpc
  · intro i t ht hpc
    rw [start_idle d work i t ht] at hpc
    exact Pc.noConfusion hpc
  · intro i t ht hpc
    exact absurd (start_idle d work i t ht) hpc
  · show List.Perm (pendingKeys (work.map _) ++ maprange d.items) _
    rw [pendingKeys_start, hrange, List.append_nil]

theorem pendingKeys_of_finished (l : List (Thread K V))
    (h : l.all (fun t => t.todo.isEmpty) = true) : pendingKeys l = [] := by
  induction l with
  | nil => rfl
  | cons t l ih =>
    rw [List.all_cons, Bool.and_eq_true] at h
    rw [pendingKeys, ih h.2, List.append_nil]
    have ht : t.todo = [] := List.isEmpty_iff.1 h.1
    unfold Thread.pending
    rw [ht]
    split <;> rfl

theorem Inv.length_of_finished {all : List (Key K)} {c : Config K V} (hinv : c.Inv all)
    (hfin : c.finished = true) : (c.d.Length).1 = all.length := by
  have hk := hinv.keys
  rw [pendingKeys_of_finished c.threads hfin, List.nil_append] at hk
  rw [Dictionary.Length_fst, maplen_eq_length_maprange]
  exact hk.length_eq

end Config

theorem Thread.step_isSome (t : Thread K V) (d : Dictionary K V) (m : RWMutex)
    (htodo : t.todo ≠ []) (h : t.pc ≠ Pc.idle ∨ m = RWMutex.free) :
    (t.step d m).isSome = true := by
  obtain ⟨pc, todo⟩ := t
  cases todo with
  | nil => exact absurd rfl htodo
  | cons kv rest =>
    obtain ⟨key, value⟩ := kv
    cases pc with
    | idle =>
      rcases h with h | h
      · exact absurd rfl h
      · simp only [Thread.step, if_pos h]
        rfl
    | locked => rfl
    | sawNil => rfl
    | ready => rfl
    | assigned => rfl

theorem Thread.fuel_step (t t2 : Thread K V) (d d2 : Dictionary K V) (m m2 : RWMutex)
    (hs : t.step d m = some (t2, d2, m2)) : t2.fuel < t.fuel := by
  obtain ⟨pc, todo⟩ := t
  cases todo with
  | nil => exact Option.noConfusion hs
  | cons kv rest =>
    obtain ⟨key, value⟩ := kv
    cases pc with
    | idle =>
      by_cases hfree : m = RWMutex.free
      · simp only [Thread.step, if_pos hfree, Option.some.injEq, Prod.mk.injEq] at hs
        rw [← hs.1]
        simp only [Thread.fuel, Pc.index, List.length_cons]
        omega
      · simp only [Thread.step, if_neg hfree] at hs
        exact Option.noConfusion hs
    | locked =>
      simp only [Thread.step, Option.some.injEq, Prod.mk.injEq] at hs
      rw [← hs.1]
      by_cases h : (d.emit Event.read).items.isNone = true
      · rw [if_pos h]
        simp only [Thread.fuel, Pc.index, List.length_cons]
        omega
      · rw [if_neg h]
        simp only [Thread.fuel, Pc.index, List.length_cons]
        omega
    | sawNil =>
      simp only [Thread.step, Option.some.injEq, Prod.mk.injEq] at hs
      rw [← hs.1]
      simp only [Thread.fuel, Pc.index, List.length_cons]
      omega
    | ready =>
      simp only [Thread.step, Option.some.injEq, Prod.mk.injEq] at hs
      rw [← hs.1]
      simp only [Thread.fuel, Pc.index, List.length_cons]
      omega
    | assigned =>
      simp only [Thread.step, Option.some.injEq, Prod.mk.injEq] at hs
      rw [← hs.1]
      simp only [Thread.fuel, Pc.index, List.length_cons]
      omega

namespace Config

theorem fuelSum_step {c c2 : Config K V} {i : Nat} (hstep : c.step i = some c2) :
    fuelSum c2.threads < fuelSum c.threads := by
  obtain ⟨t, t2, d2, m2, ht, hs, hc2⟩ := step_eq hstep
  subst hc2
  exact fuelSum_set_lt _ _ _ _ ht (Thread.fuel_step _ _ _ _ _ _ hs)

theorem fuel_exec (sched : List Nat) {c c2 : Config K V} (hrun : c.exec sched = some c2) :
    sched.length + fuelSum c2.threads ≤ fuelSum c.threads := by
  induction sched generalizing c with
  | nil =>
    cases Option.some.inj hrun
    simp
  | cons i sched ih =>
    unfold Config.exec at hrun
    cases hs : c.step i with
    | none =>
      simp only [hs] at hrun
      exact Option.noConfusion hrun
    | some c3 =>
      simp only [hs] at hrun
      have h1 := ih hrun
      have h2 := fuelSum_step hs
      rw [List.length_cons]
      omega

theorem step_of_thread_step {c : Config K V} {i : Nat} {t : Thread K V}
    (ht : c.threads[i]? = some t) (hs : (t.step c.d c.lock).isSome = true) :
    ∃ c2, c.step i = some c2 := by
  cases h : t.step c.d c.lock with
  | none =>
    rw [h] at hs
    exact Bool.noConfusion hs
  | some r =>
    obtain ⟨t2, d2, m2⟩ := r
    refine ⟨⟨d2, m2, c.threads.set i t2⟩, ?_⟩
    unfold step
    simp only [ht, h]

theorem Inv.progress {all : List (Key K)} {c : Config K V} (hinv : c.Inv all)
    (hfin : c.finished = false) : ∃ i c2, c.step i = some c2 := by
  obtain ⟨o, how, hlen, hown⟩ := hinv.owner
  cases o with
  | some i =>
    have hi := hlen i rfl
    have ht : c.threads[i]? = some c.threads[i] := List.getElem?_eq_getElem hi
    have hbusy : c.threads[i].pc ≠ Pc.idle := (hown i _ ht).2 rfl
    exact ⟨i, step_of_thread_step ht
      (Thread.step_isSome _ _ _ (hinv.busy i _ ht hbusy) (Or.inl hbusy))⟩
  | none =>
    have hfree : c.lock = RWMutex.free := by
      have hr := hinv.readers
      cases hl : c.lock with
      | mk w r =>
        rw [hl] at how hr
        simp only at how hr
        rw [how, hr]
        rfl
    have hex : ∃ t ∈ c.threads, t.todo ≠ [] := by
      by_contra hno
      have hall : c.finished = true := by
        unfold finished
        rw [List.all_eq_true]
        intro t ht
        by_contra hne
        exact hno ⟨t, ht, fun h => hne (List.isEmpty_iff.2 h)⟩
      rw [hall] at hfin
      exact Bool.noConfusion hfin
    obtain ⟨t, htmem, htodo⟩ := hex
    obtain ⟨i, ht⟩ := List.mem_iff_getElem?.1 htmem
    exact ⟨i, step_of_thread_step ht (Thread.step_isSome _ _ _ htodo (Or.inr hfree))⟩

end Config

/-- A thread that runs alone from a free mutex and takes the steps of one call
`Add(k, v)` one after the other leaves the dictionary that `Add` returns. -/
theorem exec_single_add (d : Dictionary K V) (k : Key K) (v : Value V) :
    ∃ sched, (Config.start d [[(k, v)]]).exec sched =
      some ⟨d.Add k v, RWMutex.free, [⟨Pc.idle, []⟩]⟩ := by
  cases d with
  | mk items trace =>
    cases items with
    | none => exact ⟨[0, 0, 0, 0, 0], rfl⟩
    | some g => exact ⟨[0, 0, 0, 0], rfl⟩

/-- C16. No lost updates: `N` threads each make `M` calls of `Add`, on pairwise
distinct keys, on an initially empty dictionary, their steps interleaved by any
schedule that the mutex admits.  In every configuration such an execution
reaches: if all threads have completed, `Length() == N*M`; if not, some thread
can take a step (no deadlock); and the execution has at most `5*N*M` steps, so
every interleaving does complete. -/
theorem no_lost_updates (N M : Nat) (work : List (List (Key K × Value V)))
    (hN : work.length = N) (hM : ∀ w ∈ work, w.length = M)
    (hkeys : (work.flatten.map Prod.fst).Nodup)
    (d : Dictionary K V) (hd : (d.Length).1 = 0)
    (sched : List Nat) (c : Config K V)
    (hrun : (Config.start d work).exec sched = some c) :
    (c.finished = true → (c.d.Length).1 = N * M) ∧
    (c.finished = false → ∃ i c2, c.step i = some c2) ∧
    sched.length ≤ 5 * (N * M) := by
  have hinv : c.Inv (work.flatten.map Prod.fst) :=
    Config.Inv.exec hkeys sched (Config.Inv.start d hd work) hrun
  have htotal : work.flatten.length = N * M := by
    rw [Config.length_flatten_of_uniform work M hM, hN]
  refine ⟨?_, ?_, ?_⟩
  · intro hfin
    rw [hinv.length_of_finished hfin, List.length_map, htotal]
  · intro hfin
    exact hinv.progress hfin
  · have hfuel := Config.fuel_exec sched hrun
    have hstart : fuelSum (Config.start d work).threads = 5 * (N * M) := by
      show fuelSum (work.map _) = _
      rw [Config.fuelSum_start, htotal]
    omega

/-- Witness of C16: two threads with two calls each on the zero-value dictionary,
run by `exampleSchedule`, complete with `Length() == 2*2`. -/
theorem no_lost_updates_witness :
    ((Config.start (Dictionary.zero : Dictionary Nat Nat) exampleWork).exec
      exampleSchedule).map (fun c => (c.finished, (c.d.Length).1)) = some (true, 2 * 2) := by
  cases h : (Config.start (Dictionary.zero : Dictionary Nat Nat) exampleWork).exec
      exampleSchedule with
  | none =>
    have hsome : ((Config.start (Dictionary.zero : Dictionary Nat Nat) exampleWork).exec
        exampleSchedule).isSome = true := by decide
    rw [h] at hsome
    exact Bool.noConfusion hsome
  | some c =>
    have hfin : ((Config.start (Dictionary.zero : Dictionary Nat Nat) exampleWork).exec
        exampleSchedule).map Config.finished = some true := by decide
    rw [h] at hfin
    have hfin2 : c.finished = true := Option.some.inj hfin
    have hlen := (no_lost_updates 2 2 exampleWork rfl (by decide) (by decide)
      (Dictionary.zero : Dictionary Nat Nat) rfl exampleSchedule c h).1 hfin2
    rw [Option.map_some', hfin2, hlen]

end ThreadSafeDictionary
